import Mathlib

/-! # Restart test (`restart_main.cpp`): shallow embedding and verified properties

The development follows `main` of `restart_main.cpp`:

* the argument and input checks (lines 53-121),
* the mode-count loops over rows and columns (lines 125-146),
* the binomial tail recurrence of the sanity check (lines 148-165),
* the estimator battery with its running minima (lines 168-285),
* the validation test (lines 287-295).

Conventions of the embedding.

* `double` values are exact rationals (`ℚ`); no rounding, NaN or infinity.
* Buffers are lists of naturals; every read and write is bounds-checked and a
  loop returns `none` as soon as an access is out of range.
* `r` and `c` (both `1000` in the source) are parameters, so that statements
  can be made for every square shape.
* Counters and indices (`int`, `long` in the source) are unbounded numbers: in
  the source they stay below `r*c = 10^6`, far inside the range of either type.
* The estimators and `pow(2.0, x)` at a non-integral exponent are code outside
  this file; they are fields of `Externals`.
-/

namespace RestartTest

/-! ## Loops -/

/-- Counted loop `for(i = lo; i < lo + n; i++)` whose body may fail: `forLoop body n lo s`
runs `body lo`, `body (lo+1)`, ... on the state, stopping with `none` at the first failure. -/
def forLoop {σ : Type} (body : Nat → σ → Option σ) : Nat → Nat → σ → Option σ
  | 0, _, s => some s
  | k + 1, i, s => (body i s).bind (forLoop body k (i + 1))

/-- Counted loop over a signed (`long`) index: `forLoopInt body n lo s` runs the body for
the `n` consecutive index values starting at `lo`. -/
def forLoopInt {σ : Type} (body : Int → σ → σ) : Nat → Int → σ → σ
  | 0, _, s => s
  | k + 1, i, s => forLoopInt body k (i + 1) (body i s)

/-! ## Mode counts and column construction (lines 125-146) -/

/-- Bounds-checked store `buf[k] = v`. -/
def writeAt (buf : List Nat) (k : Nat) (v : Nat) : Option (List Nat) :=
  if k < buf.length then some (buf.set k v) else none

/-- The statement `if(++counts[k] > X_i) X_i = counts[k];` on the state `(counts, X_i)`. -/
def bump (k : Nat) (st : List Nat × Nat) : Option (List Nat × Nat) :=
  (st.1[k]?).bind fun old =>
    let counts := st.1.set k (old + 1)
    (counts[k]?).bind fun cur =>
      if cur > st.2 then (counts[k]?).bind fun v => some (counts, v)
      else some (counts, st.2)

/-- Lines 128-132: `memset(counts, 0, ...)`, `X_i = 0`, then the scan of row `i`
(`rdata[i*r+j]` for `j < c`); returns `X_i`. -/
def rowInner (rdata : List Nat) (r c i : Nat) : Option Nat :=
  (forLoop (fun j st => (rdata[i * r + j]?).bind fun sym => bump sym st)
    c 0 (List.replicate 256 0, 0)).map Prod.snd

/-- Lines 126-134: the maximum row count `X_r`. -/
def maxRowCount (rdata : List Nat) (r c : Nat) : Option Nat :=
  forLoop (fun i X_r => (rowInner rdata r c i).bind fun X_i =>
      some (if X_i > X_r then X_i else X_r))
    r 0 0

/-- The two sample buffers of `main`: `rdata` (the loaded symbols) and `cdata`
(the separately allocated column buffer). -/
structure Buffers where
  rdata : List Nat
  cdata : List Nat
deriving DecidableEq, Repr

/-- Lines 139-144: `memset`, `X_i = 0`, then for `i < r` the store
`cdata[j*c+i] = rdata[i*r+j]` followed by the count update on `cdata[j*c+i]`;
returns the buffers and `X_i`. -/
def colInner (r c j : Nat) (mem : Buffers) : Option (Buffers × Nat) :=
  (forLoop (fun i (st : Buffers × (List Nat × Nat)) =>
      (st.1.rdata[i * r + j]?).bind fun v =>
      (writeAt st.1.cdata (j * c + i) v).bind fun cdata =>
      (cdata[j * c + i]?).bind fun sym =>
      (bump sym st.2).bind fun cs => some ({ st.1 with cdata := cdata }, cs))
    r 0 (mem, (List.replicate 256 0, 0))).map fun st => (st.1, st.2.2)

/-- Lines 137-146: column construction fused with the maximum column count;
returns the buffers and `X_c`. -/
def buildColumns (r c : Nat) (mem : Buffers) : Option (Buffers × Nat) :=
  forLoop (fun j (st : Buffers × Nat) =>
      (colInner r c j st.1).bind fun res =>
        some (res.1, if res.2 > st.2 then res.2 else st.2))
    c 0 (mem, 0)

/-! ## Binomial tail probability (lines 152-160) -/

/-- Line 156: `for(i = 0; i < X_max-1; i++) binom_cff *= (r-i)/(double)(X_max-1-i);`
starting from `binom_cff = 1.0`. -/
def binomCffInit (r : Int) (X_max : Int) : ℚ :=
  forLoopInt (fun i binom_cff => binom_cff * (((r - i : Int) : ℚ) / ((X_max - 1 - i : Int) : ℚ)))
    (X_max - 1).toNat 0 1

/-- Lines 158-159, the body of the sweep on the state `(binom_cff, tail_prob)`.
The exponents of `pow` are integers here, so `pow` is the exact integer power. -/
def tailStep (r : Int) (p : ℚ) (j : Int) (st : ℚ × ℚ) : ℚ × ℚ :=
  let binom_cff := st.1 * (((r - j + 1 : Int) : ℚ) / ((j : Int) : ℚ))
  (binom_cff, st.2 + binom_cff * p ^ j * (1 - p) ^ (r - j))

/-- Lines 152-160: both loops, from `tail_prob = 0.0`, `binom_cff = 1.0`;
returns the final `(binom_cff, tail_prob)`. -/
def tailLoop (r : Int) (p : ℚ) (X_max : Int) : ℚ × ℚ :=
  forLoopInt (tailStep r p) (r + 1 - X_max).toNat X_max (binomCffInit r X_max, 0)

/-- The value of `tail_prob` after the sweep. -/
def tailProb (r : Int) (p : ℚ) (X_max : Int) : ℚ := (tailLoop r p X_max).2

/-! ## Estimator battery (lines 168-285) -/

/-- Functions called by `main` whose code lives outside `restart_main.cpp`. Each estimator
takes the arguments of its call site; `t_tuple_test` also returns the value it stores
through its out-parameter. `pow2 x` stands for `pow(2.0, x)`. -/
structure Externals where
  pow2 : ℚ → ℚ
  most_common : List Nat → Nat → Int → ℚ
  collision_test : List Nat → Nat → ℚ
  markov_test : List Nat → Nat → ℚ
  compression_test : List Nat → Nat → ℚ
  t_tuple_test : List Nat → Nat → Int → ℚ × Int
  lrs_test : List Nat → Nat → Int → Int → ℚ
  multi_mcw_test : List Nat → Nat → Int → ℚ
  lag_test : List Nat → Nat → Int → ℚ
  multi_mmc_test : List Nat → Nat → Int → ℚ
  LZ78Y_test : List Nat → Nat → Int → ℚ

/-- The estimators in the order in which `main` calls them. -/
inductive Est
  | most_common
  | collision_test
  | markov_test
  | compression_test
  | t_tuple_test
  | lrs_test
  | multi_mcw_test
  | lag_test
  | multi_mmc_test
  | LZ78Y_test
deriving DecidableEq, Repr

/-- What the battery reads: the two buffers and the fields of `data`. -/
structure Ctx where
  rdata : List Nat
  cdata : List Nat
  len : Nat
  alph_size : Int
  word_size : Int

/-- What the battery writes: the running minima and the t-tuple out-parameters. -/
structure Acc where
  H_r : ℚ
  H_c : ℚ
  u_r : Int
  u_c : Int
deriving DecidableEq, Repr

/-- The call `ret_min_entropy = e(buf, ...)`: the returned estimate together with the content
of the `u` variable of that orientation after the call (only `t_tuple_test` writes it, only
`lrs_test` reads it). -/
def callEst (E : Externals) (d : Ctx) (e : Est) (buf : List Nat) (u : Int) : ℚ × Int :=
  match e with
  | .most_common => (E.most_common buf d.len d.alph_size, u)
  | .collision_test => (E.collision_test buf d.len, u)
  | .markov_test => (E.markov_test buf d.len, u)
  | .compression_test => (E.compression_test buf d.len, u)
  | .t_tuple_test => E.t_tuple_test buf d.len d.alph_size
  | .lrs_test => (E.lrs_test buf d.len d.alph_size u, u)
  | .multi_mcw_test => (E.multi_mcw_test buf d.len d.alph_size, u)
  | .lag_test => (E.lag_test buf d.len d.alph_size, u)
  | .multi_mmc_test => (E.multi_mmc_test buf d.len d.alph_size, u)
  | .LZ78Y_test => (E.LZ78Y_test buf d.len d.alph_size, u)

/-- Whether the fold after the call of `e` sits inside `if(ret_min_entropy >= 0){ ... }`
(lines 207, 212, 240, 245, 252, 257, 264, 269, 276, 281). -/
def guarded : Est → Bool
  | .compression_test => true
  | .multi_mcw_test => true
  | .lag_test => true
  | .multi_mmc_test => true
  | .LZ78Y_test => true
  | _ => false

/-- The statement after the call: `H = min(ret_min_entropy, H);`, inside the
`ret_min_entropy >= 0` test for the guarded estimators. -/
def foldEst (e : Est) (ret H : ℚ) : ℚ :=
  if guarded e then (if ret ≥ 0 then min ret H else H) else min ret H

/-- Call of `e` on the row buffer and fold into `H_r`. -/
def stepRows (E : Externals) (d : Ctx) (e : Est) (s : Acc) : Acc :=
  let res := callEst E d e d.rdata s.u_r
  { s with H_r := foldEst e res.1 s.H_r, u_r := res.2 }

/-- Call of `e` on the column buffer and fold into `H_c`. -/
def stepCols (E : Externals) (d : Ctx) (e : Est) (s : Acc) : Acc :=
  let res := callEst E d e d.cdata s.u_c
  { s with H_c := foldEst e res.1 s.H_c, u_c := res.2 }

/-- One estimator of the battery: rows first, then columns. -/
def step (E : Externals) (d : Ctx) (e : Est) (s : Acc) : Acc :=
  stepCols E d e (stepRows E d e s)

/-- Lines 169-170: `H_c = data.word_size; H_r = data.word_size;`. The variables `u_r`, `u_c`
are not initialised by `main`; their initial content is an input. -/
def initAcc (d : Ctx) (u_r u_c : Int) : Acc :=
  { H_r := (d.word_size : ℚ), H_c := (d.word_size : ℚ), u_r := u_r, u_c := u_c }

/-- Lines 177-285: the battery from a given accumulator state. -/
def battery (E : Externals) (d : Ctx) (iid : Bool) (s0 : Acc) : Acc :=
  let s := step E d .most_common s0
  if !iid then
    let s :=
      if d.word_size = 1 then
        let s := step E d .collision_test s
        let s := step E d .markov_test s
        step E d .compression_test s
      else s
    let s := step E d .t_tuple_test s
    let s := step E d .lrs_test s
    let s := step E d .multi_mcw_test s
    let s := step E d .lag_test s
    let s := step E d .multi_mmc_test s
    step E d .LZ78Y_test s
  else s

/-! ## Sanity check, validation and the run as a whole -/

/-- How a run that got past input validation ends. -/
inductive Outcome
  | sanityFailed (alpha tail_prob : ℚ)
  | validationFailed (H_r H_c H_I : ℚ)
  | validated (H_r H_c H_I bound : ℚ)
deriving DecidableEq, Repr

/-- Process exit status: `exit(-1)` at line 164, otherwise `main` runs to its end. -/
def Outcome.exitStatus : Outcome → Int
  | .sanityFailed _ _ => -1
  | .validationFailed _ _ _ => 0
  | .validated _ _ _ _ => 0

/-- Lines 291-295: the validation test on the final accumulators. -/
def validate (H_I : ℚ) (s : Acc) : Outcome :=
  if min s.H_r s.H_c < H_I / 2 then .validationFailed s.H_r s.H_c H_I
  else .validated s.H_r s.H_c H_I (min (min s.H_r s.H_c) H_I)

/-- The loaded sample set (`data_t` after `read_file` and the truncation of `len`). -/
structure Data where
  word_size : Int
  alph_size : Int
  len : Nat
  symbols : List Nat

/-- The arguments the estimator calls take from `main`: the two buffers, `data.len`,
`data.alph_size` and `data.word_size`. -/
def ctxOf (data : Data) (mem : Buffers) : Ctx :=
  { rdata := mem.rdata, cdata := mem.cdata, len := data.len,
    alph_size := data.alph_size, word_size := data.word_size }

/-- Lines 116-295 of `main`: `cdata0` is the content of the freshly allocated column buffer,
`u_r0`, `u_c0` the initial content of `u_r`, `u_c`. The result is `none` when a buffer access
is out of range. -/
def restartCore (E : Externals) (iid : Bool) (H_I : ℚ) (data : Data) (r c : Nat)
    (cdata0 : List Nat) (u_r0 u_c0 : Int) : Option Outcome :=
  (maxRowCount data.symbols r c).bind fun X_r =>
  (buildColumns r c { rdata := data.symbols, cdata := cdata0 }).bind fun res =>
    let X_c := res.2
    let X_max : Int := ((max X_r X_c : Nat) : Int)
    let p := E.pow2 (-H_I)
    let alpha : ℚ := (1 / 100) / (((r : Int) + (c : Int) : Int) : ℚ)
    let tail_prob := tailProb (r : Int) p X_max
    if tail_prob < alpha then some (.sanityFailed alpha tail_prob)
    else
      let d : Ctx := ctxOf data res.1
      some (validate H_I (battery E d iid (initAcc d u_r0 u_c0)))

/-! ## Specification-side definitions -/

/-- One term of the binomial probability mass function: `C(n,j) p^j (1-p)^(n-j)`. -/
def binomTerm (n : ℕ) (p : ℚ) (j : ℕ) : ℚ :=
  (n.choose j : ℚ) * p ^ j * (1 - p) ^ (n - j)

/-- Number of occurrences of symbol `s` among the first `k` elements of the stream `f`. -/
def cntUpTo (f : Nat → Option Nat) (k s : Nat) : Nat :=
  ((Finset.range k).filter (fun j => f j = some s)).card

/-- Largest frequency of a byte value among the first `k` elements of the stream `f`. -/
def modeUpTo (f : Nat → Option Nat) (k : Nat) : Nat :=
  (Finset.range 256).sup (cntUpTo f k)

/-- Largest per-row modal frequency, as the specification words it: the maximum over rows
`i < R` of the maximum over symbols `s` of the number of positions `j < C` with
`row[i*C + j] = s`. -/
def specRowMode (row : List Nat) (R C : Nat) : Nat :=
  (Finset.range R).sup fun i => (Finset.range 256).sup fun s =>
    ((Finset.range C).filter (fun j => row[i * C + j]? = some s)).card

/-- Invariant of the frequency table and running maximum after `k` symbols of `f`. -/
def CountInv (f : Nat → Option Nat) (k : Nat) (st : List Nat × Nat) : Prop :=
  st.1.length = 256 ∧ (∀ s, s < 256 → st.1[s]? = some (cntUpTo f k s)) ∧ st.2 = modeUpTo f k

/-- Invariant of column construction on an `n × n` matrix whose row buffer is `rdata`: with
the outer loop at column `j` and the inner loop at row `i`, the row buffer is intact and
every column-buffer cell stored so far holds the transposed entry. -/
def ColInv (rdata : List Nat) (n j i : Nat) (mem : Buffers) : Prop :=
  mem.rdata = rdata ∧ mem.cdata.length = n * n ∧
  ∀ j1 i1, j1 < n → i1 < n → (j1 < j ∨ (j1 = j ∧ i1 < i)) →
    mem.cdata[j1 * n + i1]? = rdata[i1 * n + j1]?

/-- Estimators that all return the same value `v` (and `u = 0`); `pow2` is exact at the
exponents `0` and `-1` and `1/2` elsewhere. -/
def constExternals (v : ℚ) : Externals :=
  { pow2 := fun x => if x = 0 then 1 else 1 / 2
    most_common := fun _ _ _ => v
    collision_test := fun _ _ => v
    markov_test := fun _ _ => v
    compression_test := fun _ _ => v
    t_tuple_test := fun _ _ _ => (v, 0)
    lrs_test := fun _ _ _ _ => v
    multi_mcw_test := fun _ _ _ => v
    lag_test := fun _ _ _ => v
    multi_mmc_test := fun _ _ _ => v
    LZ78Y_test := fun _ _ _ => v }

/-- A 2 × 2 sample set over the bit alphabet. -/
def sampleData : Data :=
  { word_size := 1, alph_size := 2, len := 4, symbols := [0, 1, 1, 0] }

/-- Battery context for `sampleData` with its column buffer. -/
def sampleCtx : Ctx :=
  { rdata := [0, 1, 1, 0], cdata := [0, 1, 1, 0], len := 4, alph_size := 2, word_size := 1 }

/-- Accumulator state at the start of the battery for `sampleCtx`: `H_r = H_c = 1`. -/
def sampleAcc : Acc := initAcc sampleCtx 0 0

/-! ## Further definitions: certified bound, column modes, checked divisions, `main` -/

/-- The certified bound printed at line 294, when the run prints one. -/
def Outcome.certifiedBound : Outcome → Option ℚ
  | .validated _ _ _ bound => some bound
  | _ => none

/-- Largest per-column modal frequency of the row matrix, as the specification words it:
the maximum over columns `j < C` of the maximum over symbols `s` of the number of rows
`i < R` with `row[i*C + j] = s`. -/
def specColMode (row : List Nat) (R C : Nat) : Nat :=
  (Finset.range C).sup fun j => (Finset.range 256).sup fun s =>
    ((Finset.range R).filter (fun i => row[i * C + j]? = some s)).card

/-- Division `a / (double) b` that reports a zero divisor instead of producing a value. -/
def divChecked (a : ℚ) (b : Int) : Option ℚ :=
  if b = 0 then none else some (a / (b : ℚ))

/-- Line 156 with every division checked: `none` as soon as a divisor `X_max-1-i` is zero. -/
def binomCffInitChecked (r : Int) (X_max : Int) : Option ℚ :=
  forLoopInt (fun i (st : Option ℚ) => st.bind fun binom_cff =>
      (divChecked ((r - i : Int) : ℚ) (X_max - 1 - i)).map fun q => binom_cff * q)
    (X_max - 1).toNat 0 (some 1)

/-- Lines 158-159 with the division by `j` checked. -/
def tailStepChecked (r : Int) (p : ℚ) (j : Int) (st : ℚ × ℚ) : Option (ℚ × ℚ) :=
  (divChecked ((r - j + 1 : Int) : ℚ) j).map fun q =>
    let binom_cff := st.1 * q
    (binom_cff, st.2 + binom_cff * p ^ j * (1 - p) ^ (r - j))

/-- Lines 152-160 with every division checked; returns `tail_prob`, or `none` when some
divisor is zero. -/
def tailProbChecked (r : Int) (p : ℚ) (X_max : Int) : Option ℚ :=
  (forLoopInt (fun j (st : Option (ℚ × ℚ)) => st.bind (tailStepChecked r p j))
    (r + 1 - X_max).toNat X_max
    ((binomCffInitChecked r X_max).map fun b => (b, 0))).map Prod.snd

/-- Modelled from the spec: `MIN_SIZE`, a macro of `shared/utils.h` that `main` compares
`data.len` with; the specification gives it as 1,000,000 samples (`R×C` with
`R = C = 1000`). -/
def MIN_SIZE : Nat := 1000000

/-- The command line as `main` reads it: `argc`, `atoi(argv[2])`, `atof(argv[3])` and the
character `argv[4][1]`. -/
structure Args where
  argc : Int
  bits : Int
  H_I : ℚ
  flag : Char

/-- What a successful `read_file` leaves in `data`: the alphabet size, the number of symbols
and the symbol buffer. -/
structure Loaded where
  alph_size : Int
  len : Nat
  symbols : List Nat

/-- How `main` ends: one constructor for each `exit(-1)` before the core (lines 57, 68, 76,
85, 96, 102, 109, 120) and `ran` for a run that reaches line 123. -/
inductive Exit
  | badUsage
  | badWordSize
  | badHI
  | badFlag
  | readError
  | oneSymbol
  | tooFewSamples
  | noMemory
  | ran (o : Outcome)
deriving DecidableEq, Repr

/-- Process exit status of `main`. -/
def Exit.status : Exit → Int
  | .ran o => o.exitStatus
  | _ => -1

/-- The function `main` (lines 42-299). `file` is the result of `read_file` (`none` when it
returns false), `malloc n` the result of `malloc(n)` (`none` for `NULL`, otherwise the fresh
buffer), `u_r0`, `u_c0` the initial content of `u_r`, `u_c`. The result is `none` when a
buffer access is out of range. -/
def main (E : Externals) (a : Args) (file : Option Loaded) (malloc : Nat → Option (List Nat))
    (u_r0 u_c0 : Int) : Option Exit :=
  if a.argc ≠ 5 ∧ a.argc ≠ 6 then some .badUsage
  else if a.bits < 1 ∨ a.bits > 8 then some .badWordSize
  else if a.H_I < 0 ∨ a.H_I > (a.bits : ℚ) then some .badHI
  else if a.flag ≠ 'i' ∧ a.flag ≠ 'n' then some .badFlag
  else
    match file with
    | none => some .readError
    | some f =>
      if f.alph_size = 1 then some .oneSymbol
      else
        let len := if f.len > MIN_SIZE then MIN_SIZE else f.len
        if len < MIN_SIZE then some .tooFewSamples
        else
          match malloc len with
          | none => some .noMemory
          | some cdata0 =>
            (restartCore E (decide (a.flag = 'i')) a.H_I
              { word_size := a.bits, alph_size := f.alph_size, len := len,
                symbols := f.symbols }
              1000 1000 cdata0 u_r0 u_c0).map Exit.ran

/-- Accumulators `H_r = H_c = 1/4` used as a validation example. -/
def quarterAcc : Acc := { H_r := 1 / 4, H_c := 1 / 4, u_r := 0, u_c := 0 }

/-- Accumulators `H_r = H_c = 3/4` used as a validation example. -/
def threeQuarterAcc : Acc := { H_r := 3 / 4, H_c := 3 / 4, u_r := 0, u_c := 0 }

/-- Battery context of an 8-bit sample set. -/
def byteCtx : Ctx :=
  { rdata := [0, 1, 1, 0], cdata := [0, 1, 1, 0], len := 4, alph_size := 2, word_size := 8 }

/-- The externals `E` with the collision, Markov and compression estimators replaced. -/
def withBitEstimators (E : Externals) (f1 f2 f3 : List Nat → Nat → ℚ) : Externals :=
  { E with collision_test := f1, markov_test := f2, compression_test := f3 }

/-- The sanity check of a run of `main` on the loaded symbols fails: the tail probability at
`X_max = max(X_r, X_c)` with `n = 1000` trials and `p = pow(2, -H_I)` is below
`alpha = 0.01/2000`. -/
def sanityFails (E : Externals) (H_I : ℚ) (symbols : List Nat) : Prop :=
  tailProb ((1000 : ℕ) : Int) (E.pow2 (-H_I))
      ((max (specRowMode symbols 1000 1000) (specColMode symbols 1000 1000) : Nat) : Int)
    < (1 / 100 : ℚ) / (((1000 : ℕ) : ℚ) + ((1000 : ℕ) : ℚ))

/-- The failure conditions of the exit-status rule as the specification lists them: bad
argument count, `wordSize` outside `1..8`, `H_I < 0` or `H_I > wordSize`, a flag that is
neither `i` nor `n`, an unreadable file, an alphabet of size 1, fewer than 1,000,000
samples, or a failed sanity check. -/
def listedFailure (E : Externals) (a : Args) (file : Option Loaded) : Prop :=
  (a.argc ≠ 5 ∧ a.argc ≠ 6) ∨ (a.bits < 1 ∨ a.bits > 8) ∨
  (a.H_I < 0 ∨ a.H_I > (a.bits : ℚ)) ∨ (a.flag ≠ 'i' ∧ a.flag ≠ 'n') ∨ file = none ∨
  ∃ f, file = some f ∧ (f.alph_size = 1 ∨ f.len < MIN_SIZE ∨ sanityFails E a.H_I f.symbols)

/-- One million samples alternating between 0 and 1. -/
@[irreducible]
def altSymbols : List Nat := (List.range 1000000).map fun k => k % 2

/-- A readable file of one million alternating bits. -/
def altFile : Loaded := { alph_size := 2, len := 1000000, symbols := altSymbols }

/-- A valid command line: five arguments, 1 bit per word, `H_I = 0`, flag `i`. -/
def validArgs : Args := { argc := 5, bits := 1, H_I := 0, flag := 'i' }

/-! ## Lemmas on the counting loops -/

theorem forLoop_succ {σ : Type} (body : Nat → σ → Option σ) (k lo : Nat) (s : σ) :
    forLoop body (k + 1) lo s = (forLoop body k lo s).bind (body (lo + k)) := by
  induction k generalizing lo s with
  | zero => simp [forLoop]
  | succ k ih =>
    rw [forLoop]
    cases hb : body lo s with
    | none => simp [forLoop, hb]
    | some s1 =>
      simp only [Option.some_bind]
      rw [ih]
      have e : lo + 1 + k = lo + (k + 1) := by omega
      rw [e]
      conv_rhs => rw [forLoop, hb]
      simp

/-- Invariant rule for counted loops: the loop terminates normally and establishes
the invariant at the final index. -/
theorem forLoop_inv {σ : Type} (body : Nat → σ → Option σ) (Inv : Nat → σ → Prop)
    (n lo : Nat) (s0 : σ) (h0 : Inv 0 s0)
    (hstep : ∀ k s, k < n → Inv k s → ∃ s1, body (lo + k) s = some s1 ∧ Inv (k + 1) s1) :
    ∃ s1, forLoop body n lo s0 = some s1 ∧ Inv n s1 := by
  induction n with
  | zero => exact ⟨s0, rfl, h0⟩
  | succ n ih =>
    obtain ⟨s1, h1, hi1⟩ := ih (fun k s hk => hstep k s (Nat.lt_succ_of_lt hk))
    obtain ⟨s2, h2, hi2⟩ := hstep n s1 (Nat.lt_succ_self n) hi1
    exact ⟨s2, by rw [forLoop_succ, h1]; exact h2, hi2⟩

theorem cntUpTo_succ (f : Nat → Option Nat) (k s : Nat) :
    cntUpTo f (k + 1) s = cntUpTo f k s + (if f k = some s then 1 else 0) := by
  unfold cntUpTo
  rw [Finset.range_succ, Finset.filter_insert]
  split_ifs with h
  · rw [Finset.card_insert_of_not_mem]
    simp
  · rfl

theorem cntUpTo_le (f : Nat → Option Nat) (k s : Nat) : cntUpTo f k s ≤ k := by
  unfold cntUpTo
  calc _ ≤ (Finset.range k).card := Finset.card_filter_le _ _
    _ = k := Finset.card_range k

theorem countInv_init (f : Nat → Option Nat) : CountInv f 0 (List.replicate 256 0, 0) := by
  refine ⟨List.length_replicate _ _, ?_, ?_⟩
  · intro s hs
    show (List.replicate 256 0)[s]? = some (cntUpTo f 0 s)
    rw [List.getElem?_replicate, if_pos hs]
    simp [cntUpTo]
  · unfold modeUpTo
    symm
    apply Nat.eq_zero_of_le_zero
    apply Finset.sup_le
    intro s _
    simp [cntUpTo]

theorem modeUpTo_succ (f : Nat → Option Nat) (k t : Nat) (ht : t < 256) (hf : f k = some t) :
    modeUpTo f (k + 1) = max (modeUpTo f k) (cntUpTo f k t + 1) := by
  unfold modeUpTo
  apply le_antisymm
  · apply Finset.sup_le
    intro s hs
    rw [cntUpTo_succ, hf]
    by_cases hst : t = s
    · subst hst
      simp
    · have : (some t = some s) = False := by simp [hst]
      simp only [this, if_false, add_zero]
      exact le_trans (Finset.le_sup hs) (le_max_left _ _)
  · apply max_le
    · apply Finset.sup_mono_fun
      intro s _
      rw [cntUpTo_succ]
      exact Nat.le_add_right _ _
    · have h : cntUpTo f k t + 1 = cntUpTo f (k + 1) t := by
        rw [cntUpTo_succ, hf]; simp
      rw [h]
      exact Finset.le_sup (f := cntUpTo f (k + 1)) (Finset.mem_range.mpr ht)

theorem bump_inv (f : Nat → Option Nat) (k t : Nat) (st : List Nat × Nat)
    (hinv : CountInv f k st) (hf : f k = some t) (ht : t < 256) :
    ∃ st1, bump t st = some st1 ∧ CountInv f (k + 1) st1 := by
  obtain ⟨hlen, hcnt, hX⟩ := hinv
  have htl : t < st.1.length := by omega
  refine ⟨(st.1.set t (cntUpTo f k t + 1), max st.2 (cntUpTo f k t + 1)), ?_, ?_, ?_, ?_⟩
  · unfold bump
    rw [hcnt t ht]
    simp only [Option.some_bind, List.getElem?_set_self htl]
    split_ifs with h
    · rw [max_eq_right (le_of_lt h)]
    · rw [max_eq_left (not_lt.mp h)]
  · simpa using hlen
  · intro s hs
    rw [cntUpTo_succ, hf]
    by_cases hst : t = s
    · subst hst
      simp [List.getElem?_set_self htl]
    · rw [List.getElem?_set_ne hst, hcnt s hs]
      simp [hst]
  · show max st.2 (cntUpTo f k t + 1) = modeUpTo f (k + 1)
    rw [modeUpTo_succ f k t ht hf, hX]


theorem rowInner_eq (rdata : List Nat) (r c i : Nat)
    (hidx : ∀ j, j < c → i * r + j < rdata.length) (hsym : ∀ s ∈ rdata, s < 256) :
    rowInner rdata r c i = some (modeUpTo (fun j => rdata[i * r + j]?) c) := by
  obtain ⟨st, hst, hinv⟩ := forLoop_inv
    (fun j st => (rdata[i * r + j]?).bind fun sym => bump sym st)
    (CountInv (fun j => rdata[i * r + j]?)) c 0 (List.replicate 256 0, 0)
    (countInv_init _)
    (by
      intro k s hk hinv
      have hlt := hidx k hk
      have hget : rdata[i * r + k]? = some rdata[i * r + k] := List.getElem?_eq_getElem hlt
      have hs : rdata[i * r + k] < 256 := hsym _ (List.getElem_mem hlt)
      simp only [Nat.zero_add]
      rw [hget]
      exact bump_inv _ k _ s hinv hget hs)
  unfold rowInner
  rw [hst, Option.map_some', hinv.2.2]

theorem maxRowCount_eq (rdata : List Nat) (r c : Nat)
    (hidx : ∀ i j, i < r → j < c → i * r + j < rdata.length) (hsym : ∀ s ∈ rdata, s < 256) :
    maxRowCount rdata r c
      = some ((Finset.range r).sup fun i => modeUpTo (fun j => rdata[i * r + j]?) c) := by
  obtain ⟨X, hX, hinv⟩ := forLoop_inv
    (fun i X_r => (rowInner rdata r c i).bind fun X_i =>
      some (if X_i > X_r then X_i else X_r))
    (fun k X => X = (Finset.range k).sup fun i => modeUpTo (fun j => rdata[i * r + j]?) c)
    r 0 0 (by simp)
    (by
      intro k X hk hinv
      simp only [Nat.zero_add]
      rw [rowInner_eq rdata r c k (fun j hj => hidx k j hk hj) hsym]
      refine ⟨_, rfl, ?_⟩
      rw [Finset.range_succ, Finset.sup_insert, ← hinv]
      split_ifs with h
      · exact (sup_eq_left.mpr (le_of_lt h)).symm
      · exact (sup_eq_right.mpr (not_lt.mp h)).symm)
  unfold maxRowCount
  rw [hX, hinv]

theorem sq_index_lt (n i j : Nat) (hi : i < n) (hj : j < n) : i * n + j < n * n := by
  calc i * n + j < i * n + n := by omega
    _ = (i + 1) * n := by ring
    _ ≤ n * n := Nat.mul_le_mul_right n hi

theorem sq_index_inj (n j i j1 i1 : Nat) (hi : i < n) (hi1 : i1 < n)
    (h : j * n + i = j1 * n + i1) : j = j1 ∧ i = i1 := by
  have hn : 0 < n := by omega
  have hm : (j * n + i) % n = (j1 * n + i1) % n := by rw [h]
  rw [Nat.mul_add_mod_of_lt hi, Nat.mul_add_mod_of_lt hi1] at hm
  subst hm
  have : j * n = j1 * n := by omega
  exact ⟨Nat.eq_of_mul_eq_mul_right hn this, rfl⟩

theorem colInner_spec (rdata : List Nat) (n j : Nat) (mem : Buffers) (hj : j < n)
    (hlen : n * n ≤ rdata.length) (hsym : ∀ s ∈ rdata, s < 256)
    (hcol : ColInv rdata n j 0 mem) :
    ∃ m1, colInner n n j mem = some (m1, modeUpTo (fun i => rdata[i * n + j]?) n)
      ∧ ColInv rdata n (j + 1) 0 m1 := by
  obtain ⟨st, hst, hinv⟩ := forLoop_inv
    (fun i (st : Buffers × (List Nat × Nat)) =>
      (st.1.rdata[i * n + j]?).bind fun v =>
      (writeAt st.1.cdata (j * n + i) v).bind fun cdata =>
      (cdata[j * n + i]?).bind fun sym =>
      (bump sym st.2).bind fun cs => some ({ st.1 with cdata := cdata }, cs))
    (fun i st => ColInv rdata n j i st.1 ∧ CountInv (fun i => rdata[i * n + j]?) i st.2)
    n 0 (mem, (List.replicate 256 0, 0))
    ⟨hcol, countInv_init _⟩
    (by
      intro k s hk hinv
      obtain ⟨⟨hrd, hclen, hcells⟩, hcount⟩ := hinv
      have hlt : k * n + j < rdata.length := lt_of_lt_of_le (sq_index_lt n k j hk hj) hlen
      have hget : rdata[k * n + j]? = some rdata[k * n + j] := List.getElem?_eq_getElem hlt
      have hs : rdata[k * n + j] < 256 := hsym _ (List.getElem_mem hlt)
      have hw : j * n + k < s.1.cdata.length := by rw [hclen]; exact sq_index_lt n j k hj hk
      obtain ⟨cs, hb, hcs⟩ := bump_inv _ k _ s.2 hcount hget hs
      refine ⟨({ s.1 with cdata := s.1.cdata.set (j * n + k) rdata[k * n + j] }, cs),
        ?_, ⟨hrd, ?_, ?_⟩, hcs⟩
      · simp only [Nat.zero_add]
        rw [hrd, hget]
        simp only [Option.some_bind, writeAt, if_pos hw, List.getElem?_set_self hw, hb]
      · simpa using hclen
      · intro j1 i1 hj1 hi1 hcase
        by_cases hsame : j1 = j ∧ i1 = k
        · obtain ⟨e1, e2⟩ := hsame
          subst e1 e2
          show (s.1.cdata.set (j1 * n + i1) rdata[i1 * n + j1])[j1 * n + i1]? = _
          rw [List.getElem?_set_self hw, hget]
        · have hne : j * n + k ≠ j1 * n + i1 := by
            intro he
            obtain ⟨e1, e2⟩ := sq_index_inj n j k j1 i1 hk hi1 he
            exact hsame ⟨e1.symm, e2.symm⟩
          show (s.1.cdata.set (j * n + k) rdata[k * n + j])[j1 * n + i1]? = _
          rw [List.getElem?_set_ne hne]
          apply hcells j1 i1 hj1 hi1
          rcases hcase with h | ⟨h1, h2⟩
          · exact Or.inl h
          · refine Or.inr ⟨h1, ?_⟩
            have : i1 ≠ k := fun e => hsame ⟨h1, e⟩
            omega)
  obtain ⟨⟨hrd, hclen, hcells⟩, hcount⟩ := hinv
  refine ⟨st.1, ?_, hrd, hclen, ?_⟩
  · unfold colInner
    rw [hst, Option.map_some', hcount.2.2]
  · intro j1 i1 hj1 hi1 hcase
    apply hcells j1 i1 hj1 hi1
    rcases hcase with h | ⟨_, h2⟩
    · rcases Nat.lt_succ_iff_lt_or_eq.mp h with h | h
      · exact Or.inl h
      · exact Or.inr ⟨h, hi1⟩
    · omega

/-- Column construction on an `n × n` matrix: it terminates normally, returns the column
mode count, keeps the row buffer and fills every cell with the transposed entry. -/
theorem buildColumns_spec (rdata cdata : List Nat) (n : Nat)
    (hlen : n * n ≤ rdata.length) (hclen : cdata.length = n * n)
    (hsym : ∀ s ∈ rdata, s < 256) :
    ∃ cd, buildColumns n n { rdata := rdata, cdata := cdata }
        = some ({ rdata := rdata, cdata := cd },
            (Finset.range n).sup fun j => modeUpTo (fun i => rdata[i * n + j]?) n)
      ∧ cd.length = n * n
      ∧ ∀ i j, i < n → j < n → cd[j * n + i]? = rdata[i * n + j]? := by
  obtain ⟨st, hst, hinv⟩ := forLoop_inv
    (fun j (st : Buffers × Nat) =>
      (colInner n n j st.1).bind fun res =>
        some (res.1, if res.2 > st.2 then res.2 else st.2))
    (fun k st => ColInv rdata n k 0 st.1 ∧
      st.2 = (Finset.range k).sup fun j => modeUpTo (fun i => rdata[i * n + j]?) n)
    n 0 ({ rdata := rdata, cdata := cdata }, 0)
    ⟨⟨rfl, hclen, fun j1 i1 _ _ h => by omega⟩, by simp⟩
    (by
      intro k s hk hinv
      obtain ⟨hcol, hX⟩ := hinv
      obtain ⟨m1, hm1, hcol1⟩ := colInner_spec rdata n k s.1 hk hlen hsym hcol
      simp only [Nat.zero_add]
      rw [hm1]
      refine ⟨_, rfl, hcol1, ?_⟩
      show (if _ > s.2 then _ else s.2) = _
      rw [Finset.range_succ, Finset.sup_insert, ← hX]
      split_ifs with h
      · exact (sup_eq_left.mpr (le_of_lt h)).symm
      · exact (sup_eq_right.mpr (not_lt.mp h)).symm)
  obtain ⟨⟨hrd, hl, hcells⟩, hX⟩ := hinv
  refine ⟨st.1.cdata, ?_, hl, ?_⟩
  · unfold buildColumns
    rw [hst, ← hX, ← hrd]
  · intro i j hi hj
    exact hcells j i hj hi (Or.inl hj)

theorem maxRowCount_square (rdata : List Nat) (n : Nat)
    (hlen : n * n ≤ rdata.length) (hsym : ∀ s ∈ rdata, s < 256) :
    maxRowCount rdata n n
      = some ((Finset.range n).sup fun i => modeUpTo (fun j => rdata[i * n + j]?) n) :=
  maxRowCount_eq rdata n n
    (fun i j hi hj => lt_of_lt_of_le (sq_index_lt n i j hi hj) hlen) hsym

theorem modeUpTo_le (f : Nat → Option Nat) (k : Nat) : modeUpTo f k ≤ k :=
  Finset.sup_le fun s _ => cntUpTo_le f k s

theorem modeUpTo_pos (f : Nat → Option Nat) (k t : Nat) (hk : 1 ≤ k) (hf : f 0 = some t)
    (ht : t < 256) : 1 ≤ modeUpTo f k := by
  have h1 : 1 ≤ cntUpTo f k t := by
    unfold cntUpTo
    apply Finset.card_pos.mpr
    exact ⟨0, Finset.mem_filter.mpr ⟨Finset.mem_range.mpr hk, hf⟩⟩
  exact le_trans h1 (Finset.le_sup (f := cntUpTo f k) (Finset.mem_range.mpr ht))

/-- The largest modal frequency over `n ≥ 1` streams of `n` byte symbols lies in `[1, n]`. -/
theorem supMode_bounds (g : Nat → Nat → Option Nat) (n : Nat) (hn : 1 ≤ n)
    (hg : ∃ t, g 0 0 = some t ∧ t < 256) :
    1 ≤ ((Finset.range n).sup fun i => modeUpTo (g i) n) ∧
      ((Finset.range n).sup fun i => modeUpTo (g i) n) ≤ n := by
  obtain ⟨t, hgt, ht⟩ := hg
  constructor
  · exact le_trans (modeUpTo_pos (g 0) n t hn hgt ht)
      (Finset.le_sup (f := fun i => modeUpTo (g i) n) (Finset.mem_range.mpr hn))
  · exact Finset.sup_le fun i _ => modeUpTo_le (g i) n

theorem first_symbol (rdata : List Nat) (n : Nat) (hn : 1 ≤ n)
    (hlen : n * n ≤ rdata.length) (hsym : ∀ s ∈ rdata, s < 256) :
    ∃ t, rdata[0 * n + 0]? = some t ∧ t < 256 := by
  have h0 : 0 < rdata.length := lt_of_lt_of_le (Nat.mul_pos hn hn) hlen
  refine ⟨rdata[0], ?_, hsym _ (List.getElem_mem h0)⟩
  simp [List.getElem?_eq_getElem h0]

/-- Every cell index of an `n × n` buffer is `j*n + i` for its column `j = k / n` and
row `i = k % n`. -/
theorem cell_decomp (n k : Nat) (hk : k < n * n) :
    k / n < n ∧ k % n < n ∧ k / n * n + k % n = k := by
  have hn : 0 < n := by
    rcases Nat.eq_zero_or_pos n with h | h
    · subst h; simp at hk
    · exact h
  refine ⟨Nat.div_lt_of_lt_mul hk, Nat.mod_lt _ hn, ?_⟩
  rw [Nat.mul_comm]
  exact Nat.div_add_mod k n

/-! ## Lemmas on the tail recurrence -/

theorem forLoopInt_succ {σ : Type} (body : Int → σ → σ) (k : Nat) (i : Int) (s : σ) :
    forLoopInt body (k + 1) i s = body (i + k) (forLoopInt body k i s) := by
  induction k generalizing i s with
  | zero => simp [forLoopInt]
  | succ k ih =>
    rw [forLoopInt, ih]
    simp only [forLoopInt, Nat.cast_add, Nat.cast_one]
    congr 1
    ring

theorem choose_succ_mul (n k : ℕ) :
    (n.choose (k + 1) : ℚ) * ((k : ℚ) + 1) = (n.choose k : ℚ) * ((n : ℚ) - k) := by
  rcases le_or_lt k n with h | h
  · have := Nat.choose_succ_right_eq n k
    have h2 : ((n.choose (k + 1) * (k + 1) : ℕ) : ℚ) = ((n.choose k * (n - k) : ℕ) : ℚ) := by
      rw [this]
    push_cast [Nat.cast_sub h] at h2
    exact h2
  · rw [Nat.choose_eq_zero_of_lt h, Nat.choose_eq_zero_of_lt (Nat.lt_succ_of_lt h)]
    simp

theorem binomCff_upto (n m k : ℕ) (hk : k ≤ m) :
    forLoopInt (fun i binom_cff =>
        binom_cff * ((((n : Int) - i : Int) : ℚ) / ((((m : Int) + 1) - 1 - i : Int) : ℚ)))
      k 0 1 = (n.choose k : ℚ) / (m.choose k : ℚ) := by
  induction k with
  | zero => simp [forLoopInt]
  | succ k ih =>
    rw [forLoopInt_succ, ih (Nat.le_of_succ_le hk)]
    have hm : (0 : ℚ) < (m.choose k : ℚ) := by
      exact_mod_cast Nat.choose_pos (Nat.le_of_succ_le hk)
    have hm1 : (0 : ℚ) < (m.choose (k + 1) : ℚ) := by
      exact_mod_cast Nat.choose_pos hk
    have hmk : (0 : ℚ) < (m : ℚ) - k := by
      have : (k : ℚ) + 1 ≤ m := by exact_mod_cast hk
      linarith
    have e1 := choose_succ_mul n k
    have e2 := choose_succ_mul m k
    have hk1 : (0 : ℚ) < (k : ℚ) + 1 := by positivity
    push_cast
    simp only [zero_add, add_sub_cancel_right]
    rw [div_mul_div_comm, div_eq_div_iff (by positivity) (by positivity)]
    calc (n.choose k : ℚ) * ((n : ℚ) - k) * (m.choose (k + 1) : ℚ)
        = (n.choose (k + 1) : ℚ) * ((k : ℚ) + 1) * (m.choose (k + 1) : ℚ) := by rw [e1]
      _ = (n.choose (k + 1) : ℚ) * ((m.choose (k + 1) : ℚ) * ((k : ℚ) + 1)) := by ring
      _ = (n.choose (k + 1) : ℚ) * ((m.choose k : ℚ) * ((m : ℚ) - k)) := by rw [e2]

theorem binomCffInit_eq (n m : ℕ) :
    binomCffInit (n : Int) ((m : Int) + 1) = (n.choose m : ℚ) := by
  unfold binomCffInit
  have h : ((m : Int) + 1 - 1).toNat = m := by simp
  rw [h, binomCff_upto n m m le_rfl]
  simp

theorem tailLoop_upto (n m : ℕ) (p : ℚ) (k : ℕ) (hk : m + k ≤ n) :
    forLoopInt (tailStep (n : Int) p) k ((m : Int) + 1) ((n.choose m : ℚ), 0)
      = ((n.choose (m + k) : ℚ), ∑ j in Finset.Ico (m + 1) (m + 1 + k), binomTerm n p j) := by
  induction k with
  | zero => simp [forLoopInt]
  | succ k ih =>
    rw [forLoopInt_succ, ih (by omega)]
    have hj : (0 : ℚ) < ((m + k : ℕ) : ℚ) + 1 := by positivity
    have e := choose_succ_mul n (m + k)
    have hc : (n.choose (m + k) : ℚ) * ((((n : Int) - ((m : Int) + 1 + (k : Int)) + 1 : Int) : ℚ)
        / ((((m : Int) + 1 + (k : Int)) : Int) : ℚ)) = (n.choose (m + k + 1) : ℚ) := by
      push_cast
      push_cast at e hj
      rw [mul_div_assoc', div_eq_iff (by positivity)]
      linear_combination -e
    have hz1 : p ^ ((m : Int) + 1 + (k : Int)) = p ^ (m + 1 + k) := by
      rw [← zpow_natCast]; push_cast; rfl
    have hz2 : (1 - p) ^ ((n : Int) - ((m : Int) + 1 + (k : Int))) = (1 - p) ^ (n - (m + 1 + k)) := by
      rw [← zpow_natCast]
      congr 1
      omega
    simp only [tailStep]
    rw [hc, hz1, hz2]
    have hs : Finset.Ico (m + 1) (m + 1 + (k + 1)) = insert (m + 1 + k) (Finset.Ico (m + 1) (m + 1 + k)) := by
      ext x; simp; omega
    rw [hs, Finset.sum_insert (by simp)]
    simp only [binomTerm]
    have hmk : m + 1 + k = m + k + 1 := by omega
    rw [hmk]
    exact Prod.ext rfl (add_comm _ _)

theorem tailProb_eq_sum (n m : ℕ) (p : ℚ) (hm : m + 1 ≤ n) :
    tailProb (n : Int) p ((m : Int) + 1) = ∑ j in Finset.Icc (m + 1) n, binomTerm n p j := by
  unfold tailProb tailLoop
  rw [binomCffInit_eq]
  have h : ((n : Int) + 1 - ((m : Int) + 1)).toNat = n - m := by omega
  rw [h, tailLoop_upto n m p (n - m) (by omega)]
  simp only
  congr 1
  ext x; simp; omega

theorem tailProb_empty (r : Int) (p : ℚ) (X_max : Int) (h : r < X_max) :
    tailProb r p X_max = 0 := by
  unfold tailProb tailLoop
  have : (r + 1 - X_max).toNat = 0 := by omega
  rw [this]
  simp [forLoopInt]


theorem tailProb_eq_binomSum (n : ℕ) (p : ℚ) (X_max : Int) (h1 : 1 ≤ X_max) (h2 : X_max ≤ n) :
    tailProb (n : Int) p X_max = ∑ j in Finset.Icc X_max.toNat n, binomTerm n p j := by
  obtain ⟨m, hm⟩ : ∃ m : ℕ, X_max = (m : Int) + 1 := ⟨(X_max - 1).toNat, by omega⟩
  subst hm
  have ht : ((m : Int) + 1).toNat = m + 1 := by omega
  rw [ht]
  exact tailProb_eq_sum n m p (by omega)

theorem binomTerm_nonneg (n : ℕ) (p : ℚ) (hp0 : 0 ≤ p) (hp1 : p ≤ 1) (j : ℕ) :
    0 ≤ binomTerm n p j := by
  unfold binomTerm
  have : (0 : ℚ) ≤ 1 - p := by linarith
  positivity

theorem binomTerm_total (n : ℕ) (p : ℚ) :
    ∑ j in Finset.range (n + 1), binomTerm n p j = 1 := by
  have h := add_pow p (1 - p) n
  have h1 : p + (1 - p) = 1 := by ring
  rw [h1, one_pow] at h
  rw [h]
  apply Finset.sum_congr rfl
  intro j _
  unfold binomTerm
  ring

theorem tailProb_bounds (n : ℕ) (p : ℚ) (X_max : Int) (hp0 : 0 ≤ p) (hp1 : p ≤ 1)
    (hX : 1 ≤ X_max) : 0 ≤ tailProb (n : Int) p X_max ∧ tailProb (n : Int) p X_max ≤ 1 := by
  rcases lt_or_le (n : Int) X_max with h | h
  · rw [tailProb_empty _ _ _ h]; exact ⟨le_rfl, zero_le_one⟩
  · rw [tailProb_eq_binomSum n p X_max hX h]
    refine ⟨Finset.sum_nonneg (fun j _ => binomTerm_nonneg n p hp0 hp1 j), ?_⟩
    rw [← binomTerm_total n p]
    apply Finset.sum_le_sum_of_subset_of_nonneg
    · intro x hx
      simp only [Finset.mem_Icc] at hx
      simp only [Finset.mem_range]
      omega
    · intro j _ _
      exact binomTerm_nonneg n p hp0 hp1 j

theorem tailProb_antitone (n : ℕ) (p : ℚ) (a b : Int) (hp0 : 0 ≤ p) (hp1 : p ≤ 1)
    (ha : 1 ≤ a) (hab : a ≤ b) : tailProb (n : Int) p b ≤ tailProb (n : Int) p a := by
  rcases lt_or_le (n : Int) b with h | h
  · rw [tailProb_empty _ _ _ h]; exact (tailProb_bounds n p a hp0 hp1 ha).1
  · rw [tailProb_eq_binomSum n p b (le_trans ha hab) h,
      tailProb_eq_binomSum n p a ha (le_trans hab h)]
    apply Finset.sum_le_sum_of_subset_of_nonneg
    · intro x hx
      simp only [Finset.mem_Icc] at hx ⊢
      omega
    · intro j _ _
      exact binomTerm_nonneg n p hp0 hp1 j


/-! ## Lemmas on the battery and on the run -/

theorem foldEst_le (e : Est) (ret H : ℚ) : foldEst e ret H ≤ H := by
  unfold foldEst
  split_ifs
  · exact min_le_right _ _
  · exact le_rfl
  · exact min_le_right _ _

theorem stepRows_le (E : Externals) (d : Ctx) (e : Est) (s : Acc) :
    (stepRows E d e s).H_r ≤ s.H_r ∧ (stepRows E d e s).H_c = s.H_c :=
  ⟨foldEst_le _ _ _, rfl⟩

theorem stepCols_le (E : Externals) (d : Ctx) (e : Est) (s : Acc) :
    (stepCols E d e s).H_c ≤ s.H_c ∧ (stepCols E d e s).H_r = s.H_r :=
  ⟨foldEst_le _ _ _, rfl⟩

/-- A battery step applied to a state below `b` stays below `b`. -/
theorem step_le_of_le (E : Externals) (d : Ctx) (e : Est) (s : Acc) (b_r b_c : ℚ)
    (h : s.H_r ≤ b_r ∧ s.H_c ≤ b_c) :
    (step E d e s).H_r ≤ b_r ∧ (step E d e s).H_c ≤ b_c := by
  unfold step
  have h1 := stepRows_le E d e s
  have h2 := stepCols_le E d e (stepRows E d e s)
  constructor
  · rw [h2.2]; exact le_trans h1.1 h.1
  · refine le_trans h2.1 ?_
    rw [h1.2]; exact h.2

theorem battery_le (E : Externals) (d : Ctx) (iid : Bool) (s : Acc) :
    (battery E d iid s).H_r ≤ s.H_r ∧ (battery E d iid s).H_c ≤ s.H_c := by
  have h0 := step_le_of_le E d .most_common s s.H_r s.H_c ⟨le_rfl, le_rfl⟩
  unfold battery
  cases iid with
  | true => simpa using h0
  | false =>
    simp only [Bool.not_false, if_true]
    have hbits : ∀ t : Acc, t.H_r ≤ s.H_r ∧ t.H_c ≤ s.H_c →
        (if d.word_size = 1 then
            step E d .compression_test (step E d .markov_test (step E d .collision_test t))
          else t).H_r ≤ s.H_r ∧
        (if d.word_size = 1 then
            step E d .compression_test (step E d .markov_test (step E d .collision_test t))
          else t).H_c ≤ s.H_c := by
      intro t ht
      split_ifs
      · exact step_le_of_le _ _ _ _ _ _ (step_le_of_le _ _ _ _ _ _ (step_le_of_le _ _ _ _ _ _ ht))
      · exact ht
    exact step_le_of_le _ _ _ _ _ _ (step_le_of_le _ _ _ _ _ _ (step_le_of_le _ _ _ _ _ _
      (step_le_of_le _ _ _ _ _ _ (step_le_of_le _ _ _ _ _ _ (step_le_of_le _ _ _ _ _ _
        (hbits _ h0))))))

/-- The run on a square shape: both counting loops terminate normally and the outcome is
decided by the comparison of the tail probability with `alpha`. -/
theorem restartCore_square (E : Externals) (iid : Bool) (H_I : ℚ) (data : Data) (n : Nat)
    (cdata0 : List Nat) (u_r0 u_c0 : Int)
    (hlen : n * n ≤ data.symbols.length) (hclen : cdata0.length = n * n)
    (hsym : ∀ s ∈ data.symbols, s < 256) :
    ∃ X_r X_c cd,
      maxRowCount data.symbols n n = some X_r ∧
      buildColumns n n { rdata := data.symbols, cdata := cdata0 }
        = some ({ rdata := data.symbols, cdata := cd }, X_c) ∧
      restartCore E iid H_I data n n cdata0 u_r0 u_c0 =
        if tailProb (n : Int) (E.pow2 (-H_I)) ((max X_r X_c : Nat) : Int)
            < (1 / 100 : ℚ) / ((n : ℚ) + (n : ℚ)) then
          some (.sanityFailed ((1 / 100 : ℚ) / ((n : ℚ) + (n : ℚ)))
            (tailProb (n : Int) (E.pow2 (-H_I)) ((max X_r X_c : Nat) : Int)))
        else
          some (validate H_I (battery E (ctxOf data (Buffers.mk data.symbols cd)) iid
            (initAcc (ctxOf data (Buffers.mk data.symbols cd)) u_r0 u_c0))) := by
  obtain ⟨cd, hcd, -, -⟩ := buildColumns_spec data.symbols cdata0 n hlen hclen hsym
  refine ⟨_, _, cd, maxRowCount_square data.symbols n hlen hsym, hcd, ?_⟩
  unfold restartCore
  rw [maxRowCount_square data.symbols n hlen hsym, hcd]
  simp only [Option.some_bind]
  push_cast
  rfl

theorem exitStatus_validate (H_I : ℚ) (s : Acc) : (validate H_I s).exitStatus = 0 := by
  unfold validate
  split_ifs <;> rfl

/-! ## Binomial tail probability -/

/-- C1: for every trial count `n` and every integer `X_max` with `1 ≤ X_max ≤ n` (so `n ≥ 1`),
the value `tail_prob` left by the two loops (started from `binom_cff = 1`, `tail_prob = 0`)
is the binomial tail sum over `j = X_max..n` of `C(n,j) p^j (1-p)^(n-j)`. The identity
holds for every rational `p`, in particular for `p` in `[0,1]`. -/
theorem tail_prob_is_binomial_tail (n : ℕ) (p : ℚ) (X_max : Int)
    (hX : 1 ≤ X_max) (hXn : X_max ≤ (n : Int)) :
    tailProb (n : Int) p X_max
      = ∑ j in Finset.Icc X_max.toNat n, (n.choose j : ℚ) * p ^ j * (1 - p) ^ (n - j) :=
  tailProb_eq_binomSum n p X_max hX hXn

/-- Instance of C1 at `n = 3`, `p = 1/2`, `X_max = 2`. -/
theorem tail_prob_is_binomial_tail_witness :
    tailProb ((3 : ℕ) : Int) (1 / 2) 2
      = ∑ j in Finset.Icc (2 : Int).toNat 3,
          ((3 : ℕ).choose j : ℚ) * (1 / 2 : ℚ) ^ j * (1 - 1 / 2 : ℚ) ^ (3 - j) :=
  tail_prob_is_binomial_tail 3 (1 / 2) 2 (by decide) (by decide)

/-- C2: for every `n`, every `p` in `[0,1]` and every integer `X_max ≥ 1`, the tail
probability computed by the loops lies in `[0,1]`. -/
theorem tail_prob_in_unit_interval (n : ℕ) (p : ℚ) (X_max : Int)
    (hn : 1 ≤ n) (hp0 : 0 ≤ p) (hp1 : p ≤ 1) (hX : 1 ≤ X_max) :
    0 ≤ tailProb (n : Int) p X_max ∧ tailProb (n : Int) p X_max ≤ 1 :=
  have _ := hn
  tailProb_bounds n p X_max hp0 hp1 hX

/-- Instance of C2 at `n = 4`, `p = 1/3`, `X_max = 2`: the first loop runs once and the
sweep runs for `j = 2, 3, 4`. -/
theorem tail_prob_in_unit_interval_witness :
    0 ≤ tailProb ((4 : ℕ) : Int) (1 / 3) 2 ∧ tailProb ((4 : ℕ) : Int) (1 / 3) 2 ≤ 1 :=
  tail_prob_in_unit_interval 4 (1 / 3) 2 (by decide) (by norm_num) (by norm_num) (by decide)

/-- C3: for fixed `n` and `p` in `[0,1]` the tail probability is non-increasing in `X_max`:
for all integers `1 ≤ a ≤ b` (with `b` possibly above `n`), `tail(n,p,b) ≤ tail(n,p,a)`. -/
theorem tail_prob_antitone (n : ℕ) (p : ℚ) (a b : Int)
    (hn : 1 ≤ n) (hp0 : 0 ≤ p) (hp1 : p ≤ 1) (ha : 1 ≤ a) (hab : a ≤ b) :
    tailProb (n : Int) p b ≤ tailProb (n : Int) p a :=
  have _ := hn
  tailProb_antitone n p a b hp0 hp1 ha hab

/-- Instance of C3 at `n = 4`, `p = 1/3`, `a = 2`, `b = 3`. -/
theorem tail_prob_antitone_witness :
    tailProb ((4 : ℕ) : Int) (1 / 3) 3 ≤ tailProb ((4 : ℕ) : Int) (1 / 3) 2 :=
  tail_prob_antitone 4 (1 / 3) 2 3 (by decide) (by norm_num) (by norm_num) (by decide)
    (by decide)

/-! ## Mode counts and reshaping -/

/-- C4: for every row buffer of `R*C` byte symbols with `R = C`, the row loop terminates
normally and `X_r` is the maximum over rows `i < R` of the maximum over symbols `s` of the
number of positions `j < C` with `row[i*C + j] = s`. -/
theorem max_row_count_is_row_mode (row : List Nat) (R C : Nat) (hRC : R = C)
    (hlen : row.length = R * C) (hsym : ∀ s ∈ row, s < 256) :
    maxRowCount row R C = some (specRowMode row R C) := by
  subst hRC
  rw [maxRowCount_square row R (le_of_eq hlen.symm) hsym]
  rfl

/-- Instance of C4 on a 2 × 2 buffer. -/
theorem max_row_count_is_row_mode_witness :
    maxRowCount [0, 1, 1, 1] 2 2 = some (specRowMode [0, 1, 1, 1] 2 2) :=
  max_row_count_is_row_mode [0, 1, 1, 1] 2 2 rfl rfl (by decide)

/-- C5: for every buffer of `R*C` byte symbols with `R = C ≥ 1` (and a column buffer of the
same size), both loops terminate normally and `1 ≤ X_r ≤ C`, `1 ≤ X_c ≤ R`. -/
theorem mode_counts_in_range (rdata cdata0 : List Nat) (R C : Nat) (hRC : R = C)
    (hC : 1 ≤ C) (hlen : rdata.length = R * C) (hclen : cdata0.length = R * C)
    (hsym : ∀ s ∈ rdata, s < 256) :
    ∃ X_r X_c mem,
      maxRowCount rdata R C = some X_r ∧
      buildColumns R C { rdata := rdata, cdata := cdata0 } = some (mem, X_c) ∧
      1 ≤ X_r ∧ X_r ≤ C ∧ 1 ≤ X_c ∧ X_c ≤ R := by
  subst hRC
  have hle : R * R ≤ rdata.length := le_of_eq hlen.symm
  obtain ⟨cd, hcd, -, -⟩ := buildColumns_spec rdata cdata0 R hle hclen hsym
  have h0 := first_symbol rdata R hC hle hsym
  have hr := supMode_bounds (fun i j => rdata[i * R + j]?) R hC h0
  have hc := supMode_bounds (fun j i => rdata[i * R + j]?) R hC h0
  exact ⟨_, _, _, maxRowCount_square rdata R hle hsym, hcd, hr.1, hr.2, hc.1, hc.2⟩

/-- Instance of C5 on a 2 × 2 buffer. -/
theorem mode_counts_in_range_witness :
    ∃ X_r X_c mem,
      maxRowCount [0, 1, 1, 1] 2 2 = some X_r ∧
      buildColumns 2 2 { rdata := [0, 1, 1, 1], cdata := [9, 9, 9, 9] } = some (mem, X_c) ∧
      1 ≤ X_r ∧ X_r ≤ 2 ∧ 1 ≤ X_c ∧ X_c ≤ 2 :=
  mode_counts_in_range [0, 1, 1, 1] [9, 9, 9, 9] 2 2 rfl (by decide) rfl rfl (by decide)

/-- C6: after the column-construction loop on an `R × C` matrix with `R = C`,
`column[j*C + i] = row[i*R + j]` for all `i < R`, `j < C`; the column buffer keeps its
length `R*C` and each of its cells `k` holds the row-buffer entry at `(k % C)*R + k / C`,
whatever the buffer held before; the row buffer in the final state is the initial one. -/
theorem column_buffer_is_transpose (rdata cdata0 : List Nat) (R C : Nat) (hRC : R = C)
    (hlen : rdata.length = R * C) (hclen : cdata0.length = R * C)
    (hsym : ∀ s ∈ rdata, s < 256) :
    ∃ mem X_c,
      buildColumns R C { rdata := rdata, cdata := cdata0 } = some (mem, X_c) ∧
      (∀ i j, i < R → j < C → mem.cdata[j * C + i]? = rdata[i * R + j]?) ∧
      mem.cdata.length = R * C ∧
      (∀ k, k < R * C → mem.cdata[k]? = rdata[(k % C) * R + k / C]?) ∧
      mem.rdata = rdata := by
  subst hRC
  obtain ⟨cd, hcd, hcl, hcells⟩ :=
    buildColumns_spec rdata cdata0 R (le_of_eq hlen.symm) hclen hsym
  refine ⟨_, _, hcd, hcells, hcl, ?_, rfl⟩
  intro k hk
  obtain ⟨h1, h2, h3⟩ := cell_decomp R k hk
  have := hcells (k % R) (k / R) h2 h1
  rw [h3] at this
  exact this

/-- Instance of C6 on a 2 × 2 buffer. -/
theorem column_buffer_is_transpose_witness :
    ∃ mem X_c,
      buildColumns 2 2 { rdata := [0, 1, 2, 3], cdata := [9, 9, 9, 9] } = some (mem, X_c) ∧
      (∀ i j, i < 2 → j < 2 → mem.cdata[j * 2 + i]? = [0, 1, 2, 3][i * 2 + j]?) ∧
      mem.cdata.length = 2 * 2 ∧
      (∀ k, k < 2 * 2 → mem.cdata[k]? = [0, 1, 2, 3][(k % 2) * 2 + k / 2]?) ∧
      mem.rdata = [0, 1, 2, 3] :=
  column_buffer_is_transpose [0, 1, 2, 3] [9, 9, 9, 9] 2 2 rfl rfl rfl (by decide)

/-- C7: reshaping is an involution for any `R = C`: column construction applied to a row
buffer of `R*R` byte symbols yields a column buffer `cd`, and column construction applied
to `cd` as the row buffer yields the original row buffer (both runs terminate normally,
whatever the target buffers held before). -/
theorem reshape_involution (rdata b1 b2 : List Nat) (R C : Nat) (hRC : R = C)
    (hlen : rdata.length = R * C) (hb1 : b1.length = R * C) (hb2 : b2.length = R * C)
    (hsym : ∀ s ∈ rdata, s < 256) :
    ∃ cd X1 X2,
      buildColumns R C { rdata := rdata, cdata := b1 }
        = some ({ rdata := rdata, cdata := cd }, X1) ∧
      buildColumns R C { rdata := cd, cdata := b2 }
        = some ({ rdata := cd, cdata := rdata }, X2) := by
  subst hRC
  obtain ⟨cd, hcd, hcl, hcells⟩ :=
    buildColumns_spec rdata b1 R (le_of_eq hlen.symm) hb1 hsym
  have hsym2 : ∀ s ∈ cd, s < 256 := by
    intro s hs
    obtain ⟨k, hk, hks⟩ := List.getElem_of_mem hs
    rw [hcl] at hk
    obtain ⟨h1, h2, h3⟩ := cell_decomp R k hk
    have hc := hcells (k % R) (k / R) h2 h1
    rw [h3] at hc
    have hk2 : k < cd.length := by rw [hcl]; exact hk
    rw [List.getElem?_eq_getElem hk2, hks] at hc
    obtain ⟨hb, he⟩ := List.getElem?_eq_some.mp hc.symm
    rw [← he]
    exact hsym _ (List.getElem_mem hb)
  obtain ⟨cd2, hcd2, hcl2, hcells2⟩ :=
    buildColumns_spec cd b2 R (le_of_eq hcl.symm) hb2 hsym2
  have heq : cd2 = rdata := by
    apply List.ext_getElem?
    intro k
    rcases lt_or_le k (R * R) with hk | hk
    · obtain ⟨h1, h2, h3⟩ := cell_decomp R k hk
      have e2 := hcells2 (k % R) (k / R) h2 h1
      have e1 := hcells (k / R) (k % R) h1 h2
      rw [h3] at e2 e1
      rw [e2, e1]
    · rw [List.getElem?_eq_none (by rw [hcl2]; exact hk),
        List.getElem?_eq_none (by rw [hlen]; exact hk)]
  rw [heq] at hcd2
  exact ⟨cd, _, _, hcd, hcd2⟩

/-- Instance of C7 on a 2 × 2 buffer. -/
theorem reshape_involution_witness :
    ∃ cd X1 X2,
      buildColumns 2 2 { rdata := [0, 1, 2, 3], cdata := [9, 9, 9, 9] }
        = some ({ rdata := [0, 1, 2, 3], cdata := cd }, X1) ∧
      buildColumns 2 2 { rdata := cd, cdata := [7, 7, 7, 7] }
        = some ({ rdata := cd, cdata := [0, 1, 2, 3] }, X2) :=
  reshape_involution [0, 1, 2, 3] [9, 9, 9, 9] [7, 7, 7, 7] 2 2 rfl rfl rfl rfl (by decide)

/-! ## Sanity check -/

/-- C8: on a square shape `R = C` with a buffer of at least `R*C` byte symbols, both mode
counts are computed, and with `X_max = max(X_r, X_c)`, `alpha = 0.01/(R+C)` and the tail
probability taken with `n = R` trials and `p = pow(2, -H_I)`: if `tail_prob < alpha` the run
ends as a sanity-check failure carrying only `alpha` and `tail_prob` (no `H_r`, `H_c` or
bound), and that outcome is the same for any other set of estimators; otherwise the run is
the validation of what the estimator battery returns; the exit status is `-1` exactly when
`tail_prob < alpha`. -/
theorem sanity_check_gate (E : Externals) (iid : Bool) (H_I : ℚ) (data : Data) (R C : Nat)
    (cdata0 : List Nat) (u_r0 u_c0 : Int) (hRC : R = C)
    (hlen : R * C ≤ data.symbols.length) (hclen : cdata0.length = R * C)
    (hsym : ∀ s ∈ data.symbols, s < 256) :
    ∃ X_r X_c cd,
      maxRowCount data.symbols R C = some X_r ∧
      buildColumns R C { rdata := data.symbols, cdata := cdata0 }
        = some ({ rdata := data.symbols, cdata := cd }, X_c) ∧
      (tailProb (R : Int) (E.pow2 (-H_I)) ((max X_r X_c : Nat) : Int)
          < (1 / 100 : ℚ) / ((R : ℚ) + (C : ℚ)) →
        restartCore E iid H_I data R C cdata0 u_r0 u_c0
          = some (.sanityFailed ((1 / 100 : ℚ) / ((R : ℚ) + (C : ℚ)))
              (tailProb (R : Int) (E.pow2 (-H_I)) ((max X_r X_c : Nat) : Int))) ∧
        ∀ E2 : Externals, E2.pow2 = E.pow2 →
          restartCore E2 iid H_I data R C cdata0 u_r0 u_c0
            = restartCore E iid H_I data R C cdata0 u_r0 u_c0) ∧
      (¬ tailProb (R : Int) (E.pow2 (-H_I)) ((max X_r X_c : Nat) : Int)
          < (1 / 100 : ℚ) / ((R : ℚ) + (C : ℚ)) →
        restartCore E iid H_I data R C cdata0 u_r0 u_c0
          = some (validate H_I (battery E (ctxOf data (Buffers.mk data.symbols cd)) iid
              (initAcc (ctxOf data (Buffers.mk data.symbols cd)) u_r0 u_c0)))) ∧
      ((restartCore E iid H_I data R C cdata0 u_r0 u_c0).map Outcome.exitStatus = some (-1)
        ↔ tailProb (R : Int) (E.pow2 (-H_I)) ((max X_r X_c : Nat) : Int)
            < (1 / 100 : ℚ) / ((R : ℚ) + (C : ℚ))) := by
  subst hRC
  obtain ⟨X_r, X_c, cd, hr, hc, hrun⟩ :=
    restartCore_square E iid H_I data R cdata0 u_r0 u_c0 hlen hclen hsym
  refine ⟨X_r, X_c, cd, hr, hc, ?_, ?_, ?_⟩
  · intro ht
    refine ⟨by rw [hrun, if_pos ht], ?_⟩
    intro E2 hE2
    obtain ⟨X_r2, X_c2, cd2, hr2, hc2, hrun2⟩ :=
      restartCore_square E2 iid H_I data R cdata0 u_r0 u_c0 hlen hclen hsym
    rw [hr] at hr2
    rw [hc] at hc2
    have e1 : X_r = X_r2 := Option.some.inj hr2
    have e2 : X_c = X_c2 := (Prod.mk.inj (Option.some.inj hc2)).2
    subst e1 e2
    rw [hE2] at hrun2
    rw [hrun, hrun2, if_pos ht, if_pos ht]
  · intro ht
    rw [hrun, if_neg ht]
  · rw [hrun]
    constructor
    · intro hs
      by_contra ht
      rw [if_neg ht, Option.map_some', exitStatus_validate] at hs
      exact absurd (Option.some.inj hs) (by decide)
    · intro ht
      rw [if_pos ht]
      rfl

/-- Instance of C8 on a 2 × 2 bit matrix with `H_I = 1`. -/
theorem sanity_check_gate_witness :
    ∃ X_r X_c cd,
      maxRowCount sampleData.symbols 2 2 = some X_r ∧
      buildColumns 2 2 { rdata := sampleData.symbols, cdata := [9, 9, 9, 9] }
        = some ({ rdata := sampleData.symbols, cdata := cd }, X_c) ∧
      (tailProb ((2 : ℕ) : Int) ((constExternals 1).pow2 (-1)) ((max X_r X_c : Nat) : Int)
          < (1 / 100 : ℚ) / (((2 : ℕ) : ℚ) + ((2 : ℕ) : ℚ)) →
        restartCore (constExternals 1) true 1 sampleData 2 2 [9, 9, 9, 9] 0 0
          = some (.sanityFailed ((1 / 100 : ℚ) / (((2 : ℕ) : ℚ) + ((2 : ℕ) : ℚ)))
              (tailProb ((2 : ℕ) : Int) ((constExternals 1).pow2 (-1))
                ((max X_r X_c : Nat) : Int))) ∧
        ∀ E2 : Externals, E2.pow2 = (constExternals 1).pow2 →
          restartCore E2 true 1 sampleData 2 2 [9, 9, 9, 9] 0 0
            = restartCore (constExternals 1) true 1 sampleData 2 2 [9, 9, 9, 9] 0 0) ∧
      (¬ tailProb ((2 : ℕ) : Int) ((constExternals 1).pow2 (-1)) ((max X_r X_c : Nat) : Int)
          < (1 / 100 : ℚ) / (((2 : ℕ) : ℚ) + ((2 : ℕ) : ℚ)) →
        restartCore (constExternals 1) true 1 sampleData 2 2 [9, 9, 9, 9] 0 0
          = some (validate 1 (battery (constExternals 1)
              (ctxOf sampleData (Buffers.mk sampleData.symbols cd)) true
              (initAcc (ctxOf sampleData (Buffers.mk sampleData.symbols cd)) 0 0)))) ∧
      ((restartCore (constExternals 1) true 1 sampleData 2 2 [9, 9, 9, 9] 0 0).map
          Outcome.exitStatus = some (-1)
        ↔ tailProb ((2 : ℕ) : Int) ((constExternals 1).pow2 (-1)) ((max X_r X_c : Nat) : Int)
            < (1 / 100 : ℚ) / (((2 : ℕ) : ℚ) + ((2 : ℕ) : ℚ))) :=
  sanity_check_gate (constExternals 1) true 1 sampleData 2 2 [9, 9, 9, 9] 0 0 rfl
    (by decide) rfl (by decide)

/-! ## Estimator battery -/

/-- C9, as stated, fails: with estimators that all return `-1` and accumulators at
`H_r = H_c = 1`, the most-common-value, collision, Markov, t-tuple and LRS steps each
return a negative value and change the accumulator of their orientation. -/
theorem unguarded_fold_takes_negative :
    (callEst (constExternals (-1)) sampleCtx .most_common sampleCtx.rdata sampleAcc.u_r).1 < 0 ∧
    (stepRows (constExternals (-1)) sampleCtx .most_common sampleAcc).H_r ≠ sampleAcc.H_r ∧
    (callEst (constExternals (-1)) sampleCtx .most_common sampleCtx.cdata sampleAcc.u_c).1 < 0 ∧
    (stepCols (constExternals (-1)) sampleCtx .most_common sampleAcc).H_c ≠ sampleAcc.H_c ∧
    (callEst (constExternals (-1)) sampleCtx .collision_test sampleCtx.rdata sampleAcc.u_r).1 < 0 ∧
    (stepRows (constExternals (-1)) sampleCtx .collision_test sampleAcc).H_r ≠ sampleAcc.H_r ∧
    (callEst (constExternals (-1)) sampleCtx .markov_test sampleCtx.rdata sampleAcc.u_r).1 < 0 ∧
    (stepRows (constExternals (-1)) sampleCtx .markov_test sampleAcc).H_r ≠ sampleAcc.H_r ∧
    (callEst (constExternals (-1)) sampleCtx .t_tuple_test sampleCtx.rdata sampleAcc.u_r).1 < 0 ∧
    (stepRows (constExternals (-1)) sampleCtx .t_tuple_test sampleAcc).H_r ≠ sampleAcc.H_r ∧
    (callEst (constExternals (-1)) sampleCtx .lrs_test sampleCtx.rdata sampleAcc.u_r).1 < 0 ∧
    (stepRows (constExternals (-1)) sampleCtx .lrs_test sampleAcc).H_r ≠ sampleAcc.H_r := by
  simp only [callEst, constExternals, stepRows, stepCols, foldEst, guarded, sampleAcc, initAcc,
    sampleCtx]
  norm_num

/-- C9 as amended: for the compression, multi-MCW, lag, multi-MMC and LZ78Y estimators a
negative return leaves the accumulator of the orientation unchanged; for the
most-common-value, collision, Markov, t-tuple and LRS estimators the accumulator after the
step is the minimum of the returned value and its value before, whatever the sign. -/
theorem fold_sentinel_behaviour (E : Externals) (d : Ctx) (e : Est) (s : Acc) :
    ((e = .compression_test ∨ e = .multi_mcw_test ∨ e = .lag_test ∨ e = .multi_mmc_test
        ∨ e = .LZ78Y_test) →
      ((callEst E d e d.rdata s.u_r).1 < 0 → (stepRows E d e s).H_r = s.H_r) ∧
      ((callEst E d e d.cdata s.u_c).1 < 0 → (stepCols E d e s).H_c = s.H_c)) ∧
    ((e = .most_common ∨ e = .collision_test ∨ e = .markov_test ∨ e = .t_tuple_test
        ∨ e = .lrs_test) →
      (stepRows E d e s).H_r = min (callEst E d e d.rdata s.u_r).1 s.H_r ∧
      (stepCols E d e s).H_c = min (callEst E d e d.cdata s.u_c).1 s.H_c) := by
  constructor
  · intro he
    have hg : guarded e = true := by
      rcases he with h | h | h | h | h <;> subst h <;> rfl
    constructor
    · intro hneg
      show foldEst e _ s.H_r = s.H_r
      unfold foldEst
      rw [if_pos hg, if_neg (not_le.mpr hneg)]
    · intro hneg
      show foldEst e _ s.H_c = s.H_c
      unfold foldEst
      rw [if_pos hg, if_neg (not_le.mpr hneg)]
  · intro he
    have hg : guarded e = false := by
      rcases he with h | h | h | h | h <;> subst h <;> rfl
    constructor
    · show foldEst e _ s.H_r = _
      unfold foldEst
      rw [hg]
      rfl
    · show foldEst e _ s.H_c = _
      unfold foldEst
      rw [hg]
      rfl

/-- Instance of the amended C9: a compression estimate of `-1` on the rows leaves
`H_r = 1` unchanged. -/
theorem fold_sentinel_behaviour_witness :
    (stepRows (constExternals (-1)) sampleCtx .compression_test sampleAcc).H_r
      = sampleAcc.H_r :=
  ((fold_sentinel_behaviour (constExternals (-1)) sampleCtx .compression_test sampleAcc).1
    (Or.inl rfl)).1 (by norm_num [callEst, constExternals])

/-- C10: each accumulator starts at `word_size`; no step of the battery raises `H_r` or
`H_c` (the row step leaves `H_c` alone and the column step leaves `H_r` alone); the battery
as a whole does not raise them from any starting state; hence the final `H_r` and `H_c` are
at most `word_size`, for every IID flag, word size and estimator results. -/
theorem accumulators_never_raised (E : Externals) (d : Ctx) (iid : Bool) (e : Est) (s : Acc)
    (u_r u_c : Int) :
    (initAcc d u_r u_c).H_r = (d.word_size : ℚ) ∧
    (initAcc d u_r u_c).H_c = (d.word_size : ℚ) ∧
    (stepRows E d e s).H_r ≤ s.H_r ∧ (stepRows E d e s).H_c = s.H_c ∧
    (stepCols E d e s).H_c ≤ s.H_c ∧ (stepCols E d e s).H_r = s.H_r ∧
    (battery E d iid s).H_r ≤ s.H_r ∧ (battery E d iid s).H_c ≤ s.H_c ∧
    (battery E d iid (initAcc d u_r u_c)).H_r ≤ (d.word_size : ℚ) ∧
    (battery E d iid (initAcc d u_r u_c)).H_c ≤ (d.word_size : ℚ) :=
  ⟨rfl, rfl, (stepRows_le E d e s).1, (stepRows_le E d e s).2, (stepCols_le E d e s).1,
    (stepCols_le E d e s).2, (battery_le E d iid s).1, (battery_le E d iid s).2,
    (battery_le E d iid (initAcc d u_r u_c)).1, (battery_le E d iid (initAcc d u_r u_c)).2⟩

/-! ## Lemmas on validation and on the outcome of a run -/

theorem validate_validated (H_I : ℚ) (s : Acc) (a b c bound : ℚ)
    (h : validate H_I s = .validated a b c bound) :
    ¬ min s.H_r s.H_c < H_I / 2 ∧ a = s.H_r ∧ b = s.H_c ∧ c = H_I ∧
      bound = min (min s.H_r s.H_c) H_I := by
  unfold validate at h
  split_ifs at h with hlt
  injection h with h1 h2 h3 h4
  exact ⟨hlt, h1.symm, h2.symm, h3.symm, h4.symm⟩

theorem certifiedBound_some (o : Outcome) (bound : ℚ) (h : o.certifiedBound = some bound) :
    ∃ a b c, o = .validated a b c bound := by
  cases o with
  | sanityFailed x y => simp [Outcome.certifiedBound] at h
  | validationFailed x y z => simp [Outcome.certifiedBound] at h
  | validated a b c d =>
    simp only [Outcome.certifiedBound, Option.some.injEq] at h
    exact ⟨a, b, c, by rw [h]⟩

/-- A run that ends validated is the validation of accumulators that the battery left at or
below `word_size`. -/
theorem restartCore_validated (E : Externals) (iid : Bool) (H_I : ℚ) (data : Data) (r c : Nat)
    (cdata0 : List Nat) (u_r0 u_c0 : Int) (a b hI bound : ℚ)
    (h : restartCore E iid H_I data r c cdata0 u_r0 u_c0 = some (.validated a b hI bound)) :
    ∃ s : Acc, s.H_r ≤ (data.word_size : ℚ) ∧ s.H_c ≤ (data.word_size : ℚ) ∧
      validate H_I s = .validated a b hI bound := by
  unfold restartCore at h
  cases hX : maxRowCount data.symbols r c with
  | none => rw [hX] at h; simp at h
  | some X_r =>
    cases hB : buildColumns r c { rdata := data.symbols, cdata := cdata0 } with
    | none => rw [hX, hB] at h; simp at h
    | some res =>
      rw [hX, hB] at h
      simp only [Option.some_bind] at h
      split_ifs at h with hlt
      · simp at h
      · have hle := battery_le E (ctxOf data res.1) iid (initAcc (ctxOf data res.1) u_r0 u_c0)
        exact ⟨_, hle.1, hle.2, Option.some.inj h⟩

/-- The certified bound of a validation lies between `H_I/2` and `H_I` when `H_I ≥ 0`, and
below both accumulators. -/
theorem validate_bound (H_I : ℚ) (s : Acc) (a b c bound : ℚ)
    (h : validate H_I s = .validated a b c bound) :
    bound ≤ H_I ∧ bound ≤ s.H_r ∧ bound ≤ s.H_c ∧ (0 ≤ H_I → H_I / 2 ≤ bound) := by
  obtain ⟨hlt, -, -, -, hb⟩ := validate_validated H_I s a b c bound h
  subst hb
  refine ⟨min_le_right _ _, le_trans (min_le_left _ _) (min_le_left _ _),
    le_trans (min_le_left _ _) (min_le_right _ _), ?_⟩
  intro h0
  exact le_min (not_lt.mp hlt) (by linarith)

theorem battery_iid (E : Externals) (d : Ctx) (s : Acc) :
    battery E d true s = step E d .most_common s := by
  simp [battery]

theorem step_most_common (E : Externals) (d : Ctx) (s : Acc) :
    step E d .most_common s =
      { H_r := min (E.most_common d.rdata d.len d.alph_size) s.H_r,
        H_c := min (E.most_common d.cdata d.len d.alph_size) s.H_c,
        u_r := s.u_r, u_c := s.u_c } := by
  simp [step, stepRows, stepCols, callEst, foldEst, guarded]

/-! ## A concrete run -/

set_option maxRecDepth 20000 in
theorem sample_maxRowCount : maxRowCount [0, 1, 1, 0] 2 2 = some 1 := by decide

set_option maxRecDepth 20000 in
theorem sample_buildColumns :
    buildColumns 2 2 { rdata := [0, 1, 1, 0], cdata := [9, 9, 9, 9] }
      = some ({ rdata := [0, 1, 1, 0], cdata := [0, 1, 1, 0] }, 1) := by decide

theorem sample_tailProb : tailProb 2 (1 / 2) 1 = 3 / 4 := by
  have h := tailProb_eq_binomSum 2 (1 / 2) 1 (by decide) (by decide)
  have e : Finset.Icc (1 : Int).toNat 2 = {1, 2} := by decide
  rw [e] at h
  simp only [binomTerm] at h
  rw [Finset.sum_pair (by decide)] at h
  norm_num [Nat.choose] at h
  exact h

/-- The run on the 2 × 2 sample with `H_I = 1`, IID data and a most-common-value estimate
of `3/4` passes the sanity check and is validated with bound `3/4`. -/
theorem sample_run :
    restartCore (constExternals (3 / 4)) true 1 sampleData 2 2 [9, 9, 9, 9] 0 0
      = some (.validated (3 / 4) (3 / 4) 1 (3 / 4)) := by
  unfold restartCore
  have h1 : maxRowCount sampleData.symbols 2 2 = some 1 := sample_maxRowCount
  have h2 : buildColumns 2 2 { rdata := sampleData.symbols, cdata := [9, 9, 9, 9] }
      = some ({ rdata := [0, 1, 1, 0], cdata := [0, 1, 1, 0] }, 1) := sample_buildColumns
  rw [h1, h2]
  simp only [Option.some_bind]
  have hp : (constExternals (3 / 4)).pow2 (-1) = 1 / 2 := by
    simp [constExternals]
  have ht : tailProb ((2 : ℕ) : Int) (1 / 2) (((max 1 1 : ℕ) : ℕ) : Int) = 3 / 4 :=
    sample_tailProb
  rw [hp, ht, battery_iid, step_most_common]
  norm_num [validate, constExternals, initAcc, ctxOf, sampleData]

/-- A run of `main` that reaches the core passed every argument and input check, and its
outcome is that of the core on the loaded samples with `r = c = 1000`. -/
theorem main_ran (E : Externals) (a : Args) (file : Option Loaded)
    (malloc : Nat → Option (List Nat)) (u_r0 u_c0 : Int) (o : Outcome)
    (h : main E a file malloc u_r0 u_c0 = some (.ran o)) :
    (a.argc = 5 ∨ a.argc = 6) ∧ 1 ≤ a.bits ∧ a.bits ≤ 8 ∧ 0 ≤ a.H_I ∧ a.H_I ≤ (a.bits : ℚ) ∧
    (a.flag = 'i' ∨ a.flag = 'n') ∧
    ∃ f cdata0, file = some f ∧ f.alph_size ≠ 1 ∧ MIN_SIZE ≤ f.len ∧
      malloc MIN_SIZE = some cdata0 ∧
      restartCore E (decide (a.flag = 'i')) a.H_I
        { word_size := a.bits, alph_size := f.alph_size, len := MIN_SIZE,
          symbols := f.symbols } 1000 1000 cdata0 u_r0 u_c0 = some o := by
  unfold main at h
  by_cases h1 : a.argc ≠ 5 ∧ a.argc ≠ 6
  · rw [if_pos h1] at h; simp at h
  rw [if_neg h1] at h
  by_cases h2 : a.bits < 1 ∨ a.bits > 8
  · rw [if_pos h2] at h; simp at h
  rw [if_neg h2] at h
  by_cases h3 : a.H_I < 0 ∨ a.H_I > (a.bits : ℚ)
  · rw [if_pos h3] at h; simp at h
  rw [if_neg h3] at h
  by_cases h4 : a.flag ≠ 'i' ∧ a.flag ≠ 'n'
  · rw [if_pos h4] at h; simp at h
  rw [if_neg h4] at h
  cases file with
  | none => simp at h
  | some f =>
    dsimp only at h
    by_cases h5 : f.alph_size = 1
    · rw [if_pos h5] at h; simp at h
    rw [if_neg h5] at h
    by_cases h6 : (if f.len > MIN_SIZE then MIN_SIZE else f.len) < MIN_SIZE
    · rw [if_pos h6] at h; simp at h
    rw [if_neg h6] at h
    have hge : MIN_SIZE ≤ f.len := by
      by_contra hlt
      have hng : ¬ f.len > MIN_SIZE := by omega
      rw [if_neg hng] at h6
      omega
    have hlen : (if f.len > MIN_SIZE then MIN_SIZE else f.len) = MIN_SIZE := by
      split_ifs with hgt
      · rfl
      · omega
    rw [hlen] at h
    cases hm : malloc MIN_SIZE with
    | none => rw [hm] at h; simp at h
    | some cdata0 =>
      rw [hm] at h
      dsimp only at h
      rw [Option.map_eq_some'] at h
      obtain ⟨o1, ho1, ho2⟩ := h
      injection ho2 with ho2
      subst ho2
      have ha : a.argc = 5 ∨ a.argc = 6 := by
        by_contra hc
        exact h1 ⟨fun e => hc (Or.inl e), fun e => hc (Or.inr e)⟩
      have hf : a.flag = 'i' ∨ a.flag = 'n' := by
        by_contra hc
        exact h4 ⟨fun e => hc (Or.inl e), fun e => hc (Or.inr e)⟩
      obtain ⟨hb1, hb2⟩ := not_or.mp h2
      obtain ⟨hh1, hh2⟩ := not_or.mp h3
      exact ⟨ha, not_lt.mp hb1, not_lt.mp hb2, not_lt.mp hh1, not_lt.mp hh2, hf,
        f, cdata0, rfl, h5, hge, rfl, ho1⟩

/-! ## Lemmas on column modes, byte symbols and checked divisions -/

theorem cntUpTo_congr (f g : Nat → Option Nat) (k s : Nat) (h : ∀ j, j < k → f j = g j) :
    cntUpTo f k s = cntUpTo g k s := by
  unfold cntUpTo
  congr 1
  apply Finset.filter_congr
  intro j hj
  rw [h j (Finset.mem_range.mp hj)]

theorem modeUpTo_congr (f g : Nat → Option Nat) (k : Nat) (h : ∀ j, j < k → f j = g j) :
    modeUpTo f k = modeUpTo g k := by
  unfold modeUpTo
  exact Finset.sup_congr rfl fun s _ => cntUpTo_congr f g k s h

theorem specRowMode_eq (row : List Nat) (n : Nat) :
    specRowMode row n n = (Finset.range n).sup fun i => modeUpTo (fun j => row[i * n + j]?) n :=
  rfl

theorem specColMode_eq (row : List Nat) (n : Nat) :
    specColMode row n n = (Finset.range n).sup fun j => modeUpTo (fun i => row[i * n + j]?) n :=
  rfl

/-- A buffer whose cells are the transposed entries of a byte buffer holds bytes. -/
theorem transposed_bytes (rdata cd : List Nat) (n : Nat) (hcl : cd.length = n * n)
    (hcells : ∀ i j, i < n → j < n → cd[j * n + i]? = rdata[i * n + j]?)
    (hsym : ∀ s ∈ rdata, s < 256) : ∀ s ∈ cd, s < 256 := by
  intro s hs
  obtain ⟨k, hk, hks⟩ := List.getElem_of_mem hs
  have hk1 : k < n * n := by rw [← hcl]; exact hk
  obtain ⟨h1, h2, h3⟩ := cell_decomp n k hk1
  have hc := hcells (k % n) (k / n) h2 h1
  rw [h3, List.getElem?_eq_getElem hk, hks] at hc
  obtain ⟨hb, he⟩ := List.getElem?_eq_some.mp hc.symm
  rw [← he]
  exact hsym _ (List.getElem_mem hb)

/-- The row mode count of the finished column buffer is the column mode count. -/
theorem maxRowCount_transposed (rdata cd : List Nat) (n : Nat) (hcl : cd.length = n * n)
    (hcells : ∀ i j, i < n → j < n → cd[j * n + i]? = rdata[i * n + j]?)
    (hsym : ∀ s ∈ rdata, s < 256) :
    maxRowCount cd n n
      = some ((Finset.range n).sup fun j => modeUpTo (fun i => rdata[i * n + j]?) n) := by
  rw [maxRowCount_square cd n (le_of_eq hcl.symm) (transposed_bytes rdata cd n hcl hcells hsym)]
  congr 1
  apply Finset.sup_congr rfl
  intro j hj
  apply modeUpTo_congr
  intro i hi
  exact hcells i j hi (Finset.mem_range.mp hj)

theorem divChecked_ne (a : ℚ) (b : Int) (hb : b ≠ 0) : divChecked a b = some (a / (b : ℚ)) := by
  unfold divChecked
  rw [if_neg hb]

theorem initChecked_eq (r X_max : Int) (k : Nat) (i : Int) (b : ℚ)
    (h : ∀ t : Nat, t < k → X_max - 1 - (i + t) ≠ 0) :
    forLoopInt (fun i (st : Option ℚ) => st.bind fun binom_cff =>
        (divChecked ((r - i : Int) : ℚ) (X_max - 1 - i)).map fun q => binom_cff * q)
      k i (some b)
    = some (forLoopInt (fun i binom_cff =>
        binom_cff * (((r - i : Int) : ℚ) / ((X_max - 1 - i : Int) : ℚ))) k i b) := by
  induction k generalizing i b with
  | zero => rfl
  | succ k ih =>
    have h0 : X_max - 1 - i ≠ 0 := by
      have := h 0 (Nat.succ_pos k)
      simpa using this
    simp only [forLoopInt, Option.some_bind, divChecked_ne _ _ h0, Option.map_some']
    apply ih
    intro t ht
    have := h (t + 1) (Nat.succ_lt_succ ht)
    push_cast at this
    intro hc
    apply this
    rw [← hc]
    ring

theorem sweepChecked_eq (r : Int) (p : ℚ) (k : Nat) (j : Int) (st : ℚ × ℚ)
    (h : ∀ t : Nat, t < k → j + t ≠ 0) :
    forLoopInt (fun j (st : Option (ℚ × ℚ)) => st.bind (tailStepChecked r p j)) k j (some st)
      = some (forLoopInt (tailStep r p) k j st) := by
  induction k generalizing j st with
  | zero => rfl
  | succ k ih =>
    have h0 : j ≠ 0 := by
      have := h 0 (Nat.succ_pos k)
      simpa using this
    simp only [forLoopInt, Option.some_bind, tailStepChecked, divChecked_ne _ _ h0,
      Option.map_some']
    apply ih
    intro t ht
    have := h (t + 1) (Nat.succ_lt_succ ht)
    push_cast at this
    intro hc
    apply this
    rw [← hc]
    ring

/-- For `X_max ≥ 1` no division of the two loops has a zero divisor: the checked loops
return the value of the unchecked ones. -/
theorem tailProbChecked_eq (r : Int) (p : ℚ) (X_max : Int) (hX : 1 ≤ X_max) :
    tailProbChecked r p X_max = some (tailProb r p X_max) := by
  unfold tailProbChecked binomCffInitChecked
  rw [initChecked_eq r X_max _ 0 1 (by intro t ht; omega)]
  simp only [Option.map_some']
  rw [sweepChecked_eq r p _ X_max _ (by intro t ht; omega)]
  rfl

/-! ## Lemmas on special inputs: `p = 1`, `X_max = n`, constant data -/

theorem tailProb_one (n : ℕ) (X_max : Int) (h1 : 1 ≤ X_max) (h2 : X_max ≤ (n : Int)) :
    tailProb (n : Int) 1 X_max = 1 := by
  rw [tailProb_eq_binomSum n 1 X_max h1 h2]
  rw [Finset.sum_eq_single n]
  · simp [binomTerm]
  · intro j hj hne
    have hjn : j < n := by
      have := (Finset.mem_Icc.mp hj).2
      omega
    have : n - j ≠ 0 := by omega
    simp [binomTerm, this]
  · intro hn
    exact absurd (Finset.mem_Icc.mpr ⟨by omega, le_rfl⟩) hn

theorem min_size_eq : MIN_SIZE = 1000 * 1000 := by decide

/-- The exit status of `main` on well-formed inputs (the symbol buffer holds at least `len`
byte symbols, `malloc` returns a buffer of the size asked for): the run ends, with status
`-1` or `0`, and the status is `-1` exactly when a listed failure condition holds or the
column buffer cannot be allocated. -/
theorem main_status (E : Externals) (a : Args) (file : Option Loaded)
    (malloc : Nat → Option (List Nat)) (u_r0 u_c0 : Int)
    (hfile : ∀ f, file = some f → f.len ≤ f.symbols.length ∧ ∀ s ∈ f.symbols, s < 256)
    (hmalloc : ∀ k buf, malloc k = some buf → buf.length = k) :
    ∃ ex, main E a file malloc u_r0 u_c0 = some ex ∧ (ex.status = -1 ∨ ex.status = 0) ∧
      (ex.status = -1 ↔ (listedFailure E a file ∨ malloc MIN_SIZE = none)) := by
  unfold main
  by_cases h1 : a.argc ≠ 5 ∧ a.argc ≠ 6
  · rw [if_pos h1]
    exact ⟨_, rfl, Or.inl rfl, fun _ => Or.inl (Or.inl h1), fun _ => rfl⟩
  rw [if_neg h1]
  by_cases h2 : a.bits < 1 ∨ a.bits > 8
  · rw [if_pos h2]
    exact ⟨_, rfl, Or.inl rfl, fun _ => Or.inl (Or.inr (Or.inl h2)), fun _ => rfl⟩
  rw [if_neg h2]
  by_cases h3 : a.H_I < 0 ∨ a.H_I > (a.bits : ℚ)
  · rw [if_pos h3]
    exact ⟨_, rfl, Or.inl rfl, fun _ => Or.inl (Or.inr (Or.inr (Or.inl h3))), fun _ => rfl⟩
  rw [if_neg h3]
  by_cases h4 : a.flag ≠ 'i' ∧ a.flag ≠ 'n'
  · rw [if_pos h4]
    exact ⟨_, rfl, Or.inl rfl,
      fun _ => Or.inl (Or.inr (Or.inr (Or.inr (Or.inl h4)))), fun _ => rfl⟩
  rw [if_neg h4]
  cases file with
  | none =>
    exact ⟨_, rfl, Or.inl rfl,
      fun _ => Or.inl (Or.inr (Or.inr (Or.inr (Or.inr (Or.inl rfl))))), fun _ => rfl⟩
  | some f =>
    dsimp only
    by_cases h5 : f.alph_size = 1
    · rw [if_pos h5]
      exact ⟨_, rfl, Or.inl rfl, fun _ => Or.inl (Or.inr (Or.inr (Or.inr (Or.inr (Or.inr
        ⟨f, rfl, Or.inl h5⟩))))), fun _ => rfl⟩
    rw [if_neg h5]
    by_cases h6 : (if f.len > MIN_SIZE then MIN_SIZE else f.len) < MIN_SIZE
    · rw [if_pos h6]
      have hlt : f.len < MIN_SIZE := by
        split_ifs at h6 with hgt
        · omega
        · exact h6
      exact ⟨_, rfl, Or.inl rfl, fun _ => Or.inl (Or.inr (Or.inr (Or.inr (Or.inr (Or.inr
        ⟨f, rfl, Or.inr (Or.inl hlt)⟩))))), fun _ => rfl⟩
    rw [if_neg h6]
    have hge : MIN_SIZE ≤ f.len := by
      by_contra hlt
      have hng : ¬ f.len > MIN_SIZE := by omega
      rw [if_neg hng] at h6
      omega
    have hlen : (if f.len > MIN_SIZE then MIN_SIZE else f.len) = MIN_SIZE := by
      split_ifs with hgt
      · rfl
      · omega
    rw [hlen]
    cases hm : malloc MIN_SIZE with
    | none =>
      exact ⟨_, rfl, Or.inl rfl, fun _ => Or.inr rfl, fun _ => rfl⟩
    | some cdata0 =>
      dsimp only
      obtain ⟨hfl, hfs⟩ := hfile f rfl
      have hsz : 1000 * 1000 ≤ f.symbols.length := by
        rw [← min_size_eq]
        exact le_trans hge hfl
      have hcl : cdata0.length = 1000 * 1000 := by
        rw [← min_size_eq]
        exact hmalloc _ _ hm
      obtain ⟨X_r, X_c, cd, hr, hcd, hrun⟩ :=
        restartCore_square E (decide (a.flag = 'i')) a.H_I
          { word_size := a.bits, alph_size := f.alph_size, len := MIN_SIZE,
            symbols := f.symbols } 1000 cdata0 u_r0 u_c0 hsz hcl hfs
      obtain ⟨cd2, hcd2, -, -⟩ := buildColumns_spec f.symbols cdata0 1000 hsz hcl hfs
      have eXr : X_r = specRowMode f.symbols 1000 1000 := by
        have := maxRowCount_square f.symbols 1000 hsz hfs
        rw [specRowMode_eq]
        exact (Option.some.inj (hr.symm.trans this))
      have eXc : X_c = specColMode f.symbols 1000 1000 := by
        rw [specColMode_eq]
        exact (Prod.mk.inj (Option.some.inj (hcd.symm.trans hcd2))).2
      rw [hrun, eXr, eXc]
      by_cases hs : sanityFails E a.H_I f.symbols
      · have hs1 := hs
        unfold sanityFails at hs1
        rw [if_pos hs1]
        exact ⟨_, rfl, Or.inl rfl, fun _ => Or.inl (Or.inr (Or.inr (Or.inr (Or.inr (Or.inr
          ⟨f, rfl, Or.inr (Or.inr hs)⟩))))), fun _ => rfl⟩
      · have hs1 := hs
        unfold sanityFails at hs1
        rw [if_neg hs1]
        refine ⟨_, rfl, Or.inr (exitStatus_validate _ _), ?_, ?_⟩
        · intro hst
          have h0 : (0 : Int) = -1 := (exitStatus_validate _ _).symm.trans hst
          exact absurd h0 (by decide)
        · intro hl
          exfalso
          rcases hl with hl | hl
          · rcases hl with x | x | x | x | x | ⟨f1, hf1, x⟩
            · exact h1 x
            · exact h2 x
            · exact h3 x
            · exact h4 x
            · exact absurd x (by simp)
            · rw [← Option.some.inj hf1] at x
              rcases x with x | x | x
              · exact h5 x
              · omega
              · exact hs x
          · exact absurd hl (by simp)

theorem altSymbols_length : altSymbols.length = 1000000 := by
  unfold altSymbols
  rw [List.length_map, List.length_range]

theorem altSymbols_bytes : ∀ s ∈ altSymbols, s < 256 := by
  intro s hs
  unfold altSymbols at hs
  obtain ⟨k, -, hk⟩ := List.mem_map.mp hs
  omega

/-- With `p = 1` the sanity check passes on every square byte buffer: the tail probability
is 1. -/
theorem tailProb_one_of_buffer (symbols : List Nat) (n : ℕ) (hn : 1 ≤ n)
    (hlen : n * n ≤ symbols.length) (hsym : ∀ s ∈ symbols, s < 256) :
    tailProb (n : Int) 1 ((max (specRowMode symbols n n) (specColMode symbols n n) : Nat) : Int)
      = 1 := by
  have h0 := first_symbol symbols n hn hlen hsym
  have hr := supMode_bounds (fun i j => symbols[i * n + j]?) n hn h0
  have hc := supMode_bounds (fun j i => symbols[i * n + j]?) n hn h0
  rw [specRowMode_eq, specColMode_eq]
  apply tailProb_one
  · exact_mod_cast le_trans hr.1 (le_max_left _ _)
  · exact_mod_cast max_le hr.2 hc.2

theorem altFile_symbols : altFile.symbols = altSymbols := rfl

theorem altFile_len : altFile.len = 1000000 := rfl

theorem altFile_size : 1000 * 1000 ≤ altFile.symbols.length := by
  rw [altFile_symbols, altSymbols_length]

theorem altFile_bytes : ∀ s ∈ altFile.symbols, s < 256 := by
  rw [altFile_symbols]
  exact altSymbols_bytes

theorem altFile_holds_len : altFile.len ≤ altFile.symbols.length := by
  rw [altFile_symbols, altSymbols_length, altFile_len]

/-! ## Validation test -/

/-- C11: for all final `H_r`, `H_c` and `H_I`, the validation test fails exactly when
`min(H_r, H_c) < H_I/2`, and then no certified bound is produced; otherwise it passes and
the certified bound is `min(H_r, H_c, H_I)`. -/
theorem validation_test_decision (H_I : ℚ) (s : Acc) :
    (min s.H_r s.H_c < H_I / 2 →
      validate H_I s = .validationFailed s.H_r s.H_c H_I ∧
      (validate H_I s).certifiedBound = none) ∧
    (¬ min s.H_r s.H_c < H_I / 2 →
      validate H_I s = .validated s.H_r s.H_c H_I (min (min s.H_r s.H_c) H_I) ∧
      (validate H_I s).certifiedBound = some (min (min s.H_r s.H_c) H_I)) ∧
    ((validate H_I s).certifiedBound = none ↔ min s.H_r s.H_c < H_I / 2) := by
  unfold validate
  refine ⟨?_, ?_, ?_⟩
  · intro h
    rw [if_pos h]
    exact ⟨rfl, rfl⟩
  · intro h
    rw [if_neg h]
    exact ⟨rfl, rfl⟩
  · split_ifs with h
    · exact ⟨fun _ => h, fun _ => rfl⟩
    · exact ⟨fun hn => by simp [Outcome.certifiedBound] at hn, fun hlt => absurd hlt h⟩

/-- Instance of C11: with `H_r = H_c = 1/4` and `H_I = 1` the validation fails. -/
theorem validation_test_decision_witness :
    validate 1 quarterAcc = .validationFailed quarterAcc.H_r quarterAcc.H_c 1 ∧
      (validate 1 quarterAcc).certifiedBound = none :=
  (validation_test_decision 1 quarterAcc).1 (by norm_num [quarterAcc])

/-- C12: for every run that produces a certified bound, whatever the estimators return, the
bound exceeds neither the supplied `H_I` nor `word_size`. -/
theorem certified_bound_upper (E : Externals) (iid : Bool) (H_I : ℚ) (data : Data)
    (r c : Nat) (cdata0 : List Nat) (u_r0 u_c0 : Int) (o : Outcome) (bound : ℚ)
    (hrun : restartCore E iid H_I data r c cdata0 u_r0 u_c0 = some o)
    (hb : o.certifiedBound = some bound) :
    bound ≤ H_I ∧ bound ≤ (data.word_size : ℚ) := by
  obtain ⟨a, b, hI, ho⟩ := certifiedBound_some o bound hb
  subst ho
  obtain ⟨s, hs1, -, hv⟩ := restartCore_validated E iid H_I data r c cdata0 u_r0 u_c0 _ _ _ _ hrun
  obtain ⟨h1, h2, -, -⟩ := validate_bound H_I s a b hI bound hv
  exact ⟨h1, le_trans h2 hs1⟩

/-- Instance of C12 on the 2 × 2 sample run, whose certified bound is `3/4`. -/
theorem certified_bound_upper_witness :
    (3 / 4 : ℚ) ≤ 1 ∧ (3 / 4 : ℚ) ≤ (sampleData.word_size : ℚ) :=
  certified_bound_upper (constExternals (3 / 4)) true 1 sampleData 2 2 [9, 9, 9, 9] 0 0
    (.validated (3 / 4) (3 / 4) 1 (3 / 4)) (3 / 4) sample_run rfl

/-! ## Constant data -/

/-- C14: when the data is declared IID the battery is the most-common-value step alone, so
from the initial accumulators `H_r = min(MCV(rows), word_size)` and
`H_c = min(MCV(columns), word_size)`, whatever the other estimators are; and when the data
is declared IID or `word_size ≠ 1`, replacing the collision, Markov and compression
estimators by any other functions does not change the result of the battery. -/
theorem dispatch_policy (E : Externals) (d : Ctx) (iid : Bool) (s : Acc) (u_r u_c : Int) :
    (battery E d true (initAcc d u_r u_c)).H_r
      = min (E.most_common d.rdata d.len d.alph_size) (d.word_size : ℚ) ∧
    (battery E d true (initAcc d u_r u_c)).H_c
      = min (E.most_common d.cdata d.len d.alph_size) (d.word_size : ℚ) ∧
    (∀ E2 : Externals, E2.most_common = E.most_common →
      battery E2 d true s = battery E d true s) ∧
    ((iid = true ∨ d.word_size ≠ 1) →
      ∀ f1 f2 f3 : List Nat → Nat → ℚ,
        battery (withBitEstimators E f1 f2 f3) d iid s = battery E d iid s) := by
  refine ⟨?_, ?_, ?_, ?_⟩
  · rw [battery_iid, step_most_common]; rfl
  · rw [battery_iid, step_most_common]; rfl
  · intro E2 hE2
    rw [battery_iid, battery_iid, step_most_common, step_most_common, hE2]
  · intro h f1 f2 f3
    cases iid with
    | true => rw [battery_iid, battery_iid]; rfl
    | false =>
      have hw : d.word_size ≠ 1 := by
        rcases h with h | h
        · exact absurd h (by decide)
        · exact h
      simp only [battery, Bool.not_false, if_true, if_neg hw]
      rfl

/-- Instance of C14: on 8-bit non-IID data the battery ignores the collision, Markov and
compression estimators. -/
theorem dispatch_policy_witness :
    ∀ f1 f2 f3 : List Nat → Nat → ℚ,
      battery (withBitEstimators (constExternals 1) f1 f2 f3) byteCtx false sampleAcc
        = battery (constExternals 1) byteCtx false sampleAcc :=
  (dispatch_policy (constExternals 1) byteCtx false sampleAcc 0 0).2.2.2
    (Or.inr (by decide))

/-- C15, as stated, fails when the column buffer cannot be allocated: with a valid command
line (`argc = 5`, 1 bit per word, `H_I = 0`, flag `i`), a readable file of 1,000,000
alternating bits and `malloc` returning `NULL`, `main` ends at line 120 with status `-1`
although none of the listed conditions holds (with `p = pow(2, 0) = 1` the tail probability
is 1, so the sanity check would pass). -/
theorem exit_status_allocation_failure :
    main (constExternals 1) validArgs (some altFile) (fun _ => none) 0 0 = some .noMemory ∧
    Exit.status .noMemory = -1 ∧
    ¬ listedFailure (constExternals 1) validArgs (some altFile) := by
  refine ⟨?_, rfl, ?_⟩
  · simp [main, validArgs, altFile, MIN_SIZE]
  · intro h
    rcases h with x | x | x | x | x | ⟨f1, hf1, x⟩
    · exact x.1 rfl
    · revert x; simp [validArgs]
    · revert x; simp [validArgs]
    · exact x.1 rfl
    · exact absurd x (by simp)
    · rw [← Option.some.inj hf1] at x
      rcases x with x | x | x
      · revert x; simp [altFile]
      · revert x; simp [altFile, MIN_SIZE]
      · unfold sanityFails at x
        have hp : (constExternals 1).pow2 (-validArgs.H_I) = 1 := by
          simp [constExternals, validArgs]
        have ht := tailProb_one_of_buffer altFile.symbols 1000 (by decide) altFile_size
          altFile_bytes
        rw [hp, ht] at x
        revert x
        norm_num

/-- C15 as amended: on well-formed inputs (the loaded symbol buffer holds at least `len`
byte symbols, `malloc` returns a buffer of the size asked for) `main` ends with status `-1`
or `0`; the status is `-1` exactly when the argument count is not 5 or 6, `wordSize` is
outside `1..8`, `H_I < 0` or `H_I > wordSize`, the flag is neither `i` nor `n`, the file
cannot be read, the alphabet has size 1, there are fewer than 1,000,000 samples, the sanity
check fails, or the column buffer cannot be allocated; in every other case it is `0`,
whether the validation test passes or fails. -/
theorem exit_status (E : Externals) (a : Args) (file : Option Loaded)
    (malloc : Nat → Option (List Nat)) (u_r0 u_c0 : Int)
    (hfile : ∀ f, file = some f → f.len ≤ f.symbols.length ∧ ∀ s ∈ f.symbols, s < 256)
    (hmalloc : ∀ k buf, malloc k = some buf → buf.length = k) :
    ∃ ex, main E a file malloc u_r0 u_c0 = some ex ∧ (ex.status = -1 ∨ ex.status = 0) ∧
      (ex.status = -1 ↔ (listedFailure E a file ∨ malloc MIN_SIZE = none)) ∧
      (ex.status = 0 ↔ ¬ (listedFailure E a file ∨ malloc MIN_SIZE = none)) := by
  obtain ⟨ex, h1, h2, h3⟩ := main_status E a file malloc u_r0 u_c0 hfile hmalloc
  refine ⟨ex, h1, h2, h3, ?_⟩
  rw [← h3]
  rcases h2 with h | h
  · rw [h]; decide
  · rw [h]; decide

/-- Instance of the amended C15: a valid command line, a readable file of 1,000,000
alternating bits and a working `malloc`. -/
theorem exit_status_witness :
    ∃ ex, main (constExternals 1) validArgs (some altFile)
        (fun k => some (List.replicate k 0)) 0 0 = some ex ∧
      (ex.status = -1 ∨ ex.status = 0) ∧
      (ex.status = -1 ↔ (listedFailure (constExternals 1) validArgs (some altFile) ∨
        (fun k => some (List.replicate k 0)) MIN_SIZE = none)) ∧
      (ex.status = 0 ↔ ¬ (listedFailure (constExternals 1) validArgs (some altFile) ∨
        (fun k => some (List.replicate k 0)) MIN_SIZE = none)) :=
  exit_status (constExternals 1) validArgs (some altFile) (fun k => some (List.replicate k 0))
    0 0
    (fun f hf => by
      rw [← Option.some.inj hf]
      exact ⟨altFile_holds_len, altFile_bytes⟩)
    (fun k buf hb => by
      rw [← Option.some.inj hb]
      exact List.length_replicate _ _)

/-! ## Coefficient recurrence, column modes, safety of the loops -/

/-- C16, as stated, fails at `n = 4`, `X_max = 2`: the ratio product leaves
`binom_cff = 4 = C(4,1)` before the sweep, not `C(4,2) = 6`. -/
theorem binom_cff_before_sweep_counterexample :
    binomCffInit 4 2 = 4 ∧ ((Nat.choose 4 2 : ℕ) : ℚ) = 6 ∧
      binomCffInit 4 2 ≠ ((Nat.choose 4 2 : ℕ) : ℚ) := by
  have h := binomCffInit_eq 4 1
  norm_num [Nat.choose] at h
  refine ⟨h, by norm_num [Nat.choose], ?_⟩
  rw [h]
  norm_num [Nat.choose]

/-- C16 as amended: for `1 ≤ X_max ≤ n`, written `X_max = m + 1`, the ratio product over
`i = 0..X_max-2` leaves the running coefficient equal to `C(n, X_max - 1)` before the sweep
starts; and at each sweep step `j = X_max + k ≤ n`, the update by `(n-j+1)/j` of the state
reached after `k` steps makes the running coefficient `C(n, j)`, which multiplies
`p^j (1-p)^(n-j)` in the term added to the tail sum at that step. -/
theorem coefficient_recurrence (n m k : ℕ) (p : ℚ) (hj : m + 1 + k ≤ n) :
    binomCffInit (n : Int) ((m : Int) + 1) = (n.choose m : ℚ) ∧
    forLoopInt (tailStep (n : Int) p) (k + 1) ((m : Int) + 1)
        (binomCffInit (n : Int) ((m : Int) + 1), 0)
      = tailStep (n : Int) p ((m : Int) + 1 + (k : Int))
          (forLoopInt (tailStep (n : Int) p) k ((m : Int) + 1)
            (binomCffInit (n : Int) ((m : Int) + 1), 0)) ∧
    tailStep (n : Int) p ((m : Int) + 1 + (k : Int))
        (forLoopInt (tailStep (n : Int) p) k ((m : Int) + 1)
          (binomCffInit (n : Int) ((m : Int) + 1), 0))
      = ((n.choose (m + 1 + k) : ℚ),
          (forLoopInt (tailStep (n : Int) p) k ((m : Int) + 1)
            (binomCffInit (n : Int) ((m : Int) + 1), 0)).2
          + (n.choose (m + 1 + k) : ℚ) * p ^ (m + 1 + k) * (1 - p) ^ (n - (m + 1 + k))) := by
  have hstep := forLoopInt_succ (tailStep (n : Int) p) k ((m : Int) + 1)
    (binomCffInit (n : Int) ((m : Int) + 1), 0)
  refine ⟨binomCffInit_eq n m, hstep, ?_⟩
  rw [← hstep, binomCffInit_eq]
  rw [tailLoop_upto n m p (k + 1) (by omega), tailLoop_upto n m p k (by omega)]
  have hs : Finset.Ico (m + 1) (m + 1 + (k + 1))
      = insert (m + 1 + k) (Finset.Ico (m + 1) (m + 1 + k)) := by
    ext x; simp; omega
  rw [hs, Finset.sum_insert (by simp)]
  have e : m + (k + 1) = m + 1 + k := by omega
  rw [e]
  simp only [binomTerm]
  exact Prod.ext rfl (add_comm _ _)

/-- Instance of the amended C16 at `n = 4`, `X_max = 2`, first sweep step. -/
theorem coefficient_recurrence_witness :
    binomCffInit ((4 : ℕ) : Int) (((1 : ℕ) : Int) + 1) = ((4 : ℕ).choose 1 : ℚ) :=
  (coefficient_recurrence 4 1 0 (1 / 2) (by decide)).1

/-- C17: for every row buffer of `R*C` byte symbols with `R = C`, the value `X_c` produced
by the fused transpose-and-count loop is the value the row mode-count loop returns on the
finished column buffer, and it is the largest per-column modal frequency of the row
matrix. -/
theorem column_count_is_row_count_of_columns (rdata cdata0 : List Nat) (R C : Nat)
    (hRC : R = C) (hlen : rdata.length = R * C) (hclen : cdata0.length = R * C)
    (hsym : ∀ s ∈ rdata, s < 256) :
    ∃ mem X_c,
      buildColumns R C { rdata := rdata, cdata := cdata0 } = some (mem, X_c) ∧
      maxRowCount mem.cdata R C = some X_c ∧
      X_c = specColMode rdata R C := by
  subst hRC
  obtain ⟨cd, hcd, hcl, hcells⟩ :=
    buildColumns_spec rdata cdata0 R (le_of_eq hlen.symm) hclen hsym
  exact ⟨_, _, hcd, maxRowCount_transposed rdata cd R hcl hcells hsym, rfl⟩

/-- Instance of C17 on a 2 × 2 buffer. -/
theorem column_count_is_row_count_of_columns_witness :
    ∃ mem X_c,
      buildColumns 2 2 { rdata := [0, 1, 1, 1], cdata := [9, 9, 9, 9] } = some (mem, X_c) ∧
      maxRowCount mem.cdata 2 2 = some X_c ∧
      X_c = specColMode [0, 1, 1, 1] 2 2 :=
  column_count_is_row_count_of_columns [0, 1, 1, 1] [9, 9, 9, 9] 2 2 rfl rfl rfl (by decide)

/-- C18: for every buffer of `R*C` byte symbols with `R = C ≥ 1` (`1000` in the source), the
`X_max = max(X_r, X_c)` passed to the tail computation satisfies `1 ≤ X_max ≤ R`; hence the
divisors `X_max-1-i` for `0 ≤ i < X_max-1` and `j` for `X_max ≤ j ≤ R` are positive, and
the loops with every division checked return the tail probability without meeting a zero
divisor, for every `p`. -/
theorem tail_divisors_nonzero (rdata cdata0 : List Nat) (R C : Nat) (p : ℚ)
    (hRC : R = C) (hC : 1 ≤ C) (hlen : rdata.length = R * C) (hclen : cdata0.length = R * C)
    (hsym : ∀ s ∈ rdata, s < 256) :
    ∃ X_r X_c mem,
      maxRowCount rdata R C = some X_r ∧
      buildColumns R C { rdata := rdata, cdata := cdata0 } = some (mem, X_c) ∧
      1 ≤ max X_r X_c ∧ max X_r X_c ≤ R ∧
      (∀ i : Int, 0 ≤ i → i < ((max X_r X_c : Nat) : Int) - 1 →
        0 < ((max X_r X_c : Nat) : Int) - 1 - i) ∧
      (∀ j : Int, ((max X_r X_c : Nat) : Int) ≤ j → j ≤ (R : Int) → 0 < j) ∧
      tailProbChecked (R : Int) p ((max X_r X_c : Nat) : Int)
        = some (tailProb (R : Int) p ((max X_r X_c : Nat) : Int)) := by
  subst hRC
  have hle : R * R ≤ rdata.length := le_of_eq hlen.symm
  obtain ⟨cd, hcd, -, -⟩ := buildColumns_spec rdata cdata0 R hle hclen hsym
  have h0 := first_symbol rdata R hC hle hsym
  have hr := supMode_bounds (fun i j => rdata[i * R + j]?) R hC h0
  have hc := supMode_bounds (fun j i => rdata[i * R + j]?) R hC h0
  have hX1 : 1 ≤ max ((Finset.range R).sup fun i => modeUpTo (fun j => rdata[i * R + j]?) R)
      ((Finset.range R).sup fun j => modeUpTo (fun i => rdata[i * R + j]?) R) :=
    le_trans hr.1 (le_max_left _ _)
  have hX1i : (1 : Int) ≤ ((max ((Finset.range R).sup fun i =>
        modeUpTo (fun j => rdata[i * R + j]?) R)
      ((Finset.range R).sup fun j => modeUpTo (fun i => rdata[i * R + j]?) R) : Nat) : Int) := by
    exact_mod_cast hX1
  refine ⟨_, _, _, maxRowCount_square rdata R hle hsym, hcd, hX1, max_le hr.2 hc.2, ?_, ?_, ?_⟩
  · intro i _ hi
    omega
  · intro j hj _
    omega
  · exact tailProbChecked_eq _ _ _ hX1i

/-- Instance of C18 at `R = C = 1000` on the all-zero buffer. -/
theorem tail_divisors_nonzero_witness :
    ∃ X_r X_c mem,
      maxRowCount (List.replicate 1000000 0) 1000 1000 = some X_r ∧
      buildColumns 1000 1000
        { rdata := List.replicate 1000000 0, cdata := List.replicate 1000000 7 }
        = some (mem, X_c) ∧
      1 ≤ max X_r X_c ∧ max X_r X_c ≤ 1000 ∧
      (∀ i : Int, 0 ≤ i → i < ((max X_r X_c : Nat) : Int) - 1 →
        0 < ((max X_r X_c : Nat) : Int) - 1 - i) ∧
      (∀ j : Int, ((max X_r X_c : Nat) : Int) ≤ j → j ≤ ((1000 : ℕ) : Int) → 0 < j) ∧
      tailProbChecked ((1000 : ℕ) : Int) (1 / 2) ((max X_r X_c : Nat) : Int)
        = some (tailProb ((1000 : ℕ) : Int) (1 / 2) ((max X_r X_c : Nat) : Int)) :=
  tail_divisors_nonzero (List.replicate 1000000 0) (List.replicate 1000000 7) 1000 1000 (1 / 2)
    rfl (by decide) (List.length_replicate _ _) (List.length_replicate _ _)
    (fun s hs => by rw [List.eq_of_mem_replicate hs]; decide)

/-- C19: whenever `H_I ≥ 0` and a run produces a certified bound, the bound lies in
`[H_I/2, H_I]` and is non-negative; for a run of `main` the condition `H_I ≥ 0` is
guaranteed by the argument check, so the same holds with no assumption on `H_I`. -/
theorem certified_bound_interval (E : Externals) (iid : Bool) (H_I : ℚ) (data : Data)
    (r c : Nat) (cdata0 : List Nat) (u_r0 u_c0 : Int) (o : Outcome) (bound : ℚ)
    (a : Args) (file : Option Loaded) (malloc : Nat → Option (List Nat)) :
    (0 ≤ H_I → restartCore E iid H_I data r c cdata0 u_r0 u_c0 = some o →
      o.certifiedBound = some bound →
      H_I / 2 ≤ bound ∧ bound ≤ H_I ∧ 0 ≤ bound) ∧
    (main E a file malloc u_r0 u_c0 = some (.ran o) → o.certifiedBound = some bound →
      a.H_I / 2 ≤ bound ∧ bound ≤ a.H_I ∧ 0 ≤ bound) := by
  have key : ∀ (iid : Bool) (H_I : ℚ) (data : Data) (r c : Nat) (cdata0 : List Nat),
      0 ≤ H_I → restartCore E iid H_I data r c cdata0 u_r0 u_c0 = some o →
      o.certifiedBound = some bound → H_I / 2 ≤ bound ∧ bound ≤ H_I ∧ 0 ≤ bound := by
    intro iid H_I data r c cdata0 h0 hrun hb
    obtain ⟨x, y, hI, ho⟩ := certifiedBound_some o bound hb
    subst ho
    obtain ⟨s, -, -, hv⟩ :=
      restartCore_validated E iid H_I data r c cdata0 u_r0 u_c0 _ _ _ _ hrun
    obtain ⟨h1, -, -, h4⟩ := validate_bound H_I s x y hI bound hv
    exact ⟨h4 h0, h1, le_trans (by linarith) (h4 h0)⟩
  refine ⟨key iid H_I data r c cdata0, ?_⟩
  intro hmain hb
  obtain ⟨-, -, -, h0, -, -, f, cd, -, -, -, -, hrun⟩ :=
    main_ran E a file malloc u_r0 u_c0 o hmain
  exact key _ _ _ _ _ _ h0 hrun hb

/-- Instance of C19 on the 2 × 2 sample run: `H_I = 1` and the certified bound is `3/4`. -/
theorem certified_bound_interval_witness :
    (1 : ℚ) / 2 ≤ 3 / 4 ∧ (3 / 4 : ℚ) ≤ 1 ∧ (0 : ℚ) ≤ 3 / 4 :=
  (certified_bound_interval (constExternals (3 / 4)) true 1 sampleData 2 2 [9, 9, 9, 9] 0 0
    (.validated (3 / 4) (3 / 4) 1 (3 / 4)) (3 / 4) ⟨5, 1, 1, 'i'⟩ none (fun _ => none)).1
    (by norm_num) sample_run rfl

/-- C20: with `r = c` (`1000` in the source), a row buffer and a column buffer of exactly
`r*c` cells and byte-valued symbols: the indices `i*r + j` and `j*c + i` lie below `r*c` for
all `i < r`, `j < c`; every symbol read from `rdata` or `cdata` as a frequency-table index
is below 256; and the mode-count and column-construction loops, whose accesses are all
bounds-checked, return a result, so no access is out of range. -/
theorem loops_index_safe (rdata cdata0 : List Nat) (R C : Nat) (hRC : R = C)
    (hlen : rdata.length = R * C) (hclen : cdata0.length = R * C)
    (hsym : ∀ s ∈ rdata, s < 256) :
    (∀ i j, i < R → j < C → i * R + j < R * C ∧ j * C + i < R * C) ∧
    (∀ i j, i < R → j < C → ∃ v, rdata[i * R + j]? = some v ∧ v < 256) ∧
    ∃ X_r X_c mem,
      maxRowCount rdata R C = some X_r ∧
      buildColumns R C { rdata := rdata, cdata := cdata0 } = some (mem, X_c) ∧
      mem.cdata.length = R * C ∧
      (∀ i j, i < R → j < C → ∃ v, mem.cdata[j * C + i]? = some v ∧ v < 256) := by
  subst hRC
  have hle : R * R ≤ rdata.length := le_of_eq hlen.symm
  obtain ⟨cd, hcd, hcl, hcells⟩ := buildColumns_spec rdata cdata0 R hle hclen hsym
  have hread : ∀ i j, i < R → j < R → ∃ v, rdata[i * R + j]? = some v ∧ v < 256 := by
    intro i j hi hj
    have hlt : i * R + j < rdata.length := lt_of_lt_of_le (sq_index_lt R i j hi hj) hle
    exact ⟨rdata[i * R + j], List.getElem?_eq_getElem hlt, hsym _ (List.getElem_mem hlt)⟩
  refine ⟨fun i j hi hj => ⟨sq_index_lt R i j hi hj, sq_index_lt R j i hj hi⟩, hread,
    _, _, _, maxRowCount_square rdata R hle hsym, hcd, hcl, ?_⟩
  intro i j hi hj
  obtain ⟨v, hv, hv256⟩ := hread i j hi hj
  exact ⟨v, by rw [hcells i j hi hj, hv], hv256⟩

/-- Instance of C20 at `r = c = 1000` on the all-zero buffer. -/
theorem loops_index_safe_witness :
    (∀ i j, i < 1000 → j < 1000 → i * 1000 + j < 1000 * 1000 ∧ j * 1000 + i < 1000 * 1000) ∧
    (∀ i j, i < 1000 → j < 1000 →
      ∃ v, (List.replicate 1000000 0)[i * 1000 + j]? = some v ∧ v < 256) ∧
    ∃ X_r X_c mem,
      maxRowCount (List.replicate 1000000 0) 1000 1000 = some X_r ∧
      buildColumns 1000 1000
        { rdata := List.replicate 1000000 0, cdata := List.replicate 1000000 7 }
        = some (mem, X_c) ∧
      mem.cdata.length = 1000 * 1000 ∧
      (∀ i j, i < 1000 → j < 1000 → ∃ v, mem.cdata[j * 1000 + i]? = some v ∧ v < 256) :=
  loops_index_safe (List.replicate 1000000 0) (List.replicate 1000000 7) 1000 1000 rfl
    (List.length_replicate _ _) (List.length_replicate _ _)
    (fun s hs => by rw [List.eq_of_mem_replicate hs]; decide)

end RestartTest
